import Mathlib

/-!
Shallow embedding of the computational-graph engine
(`src/computational_graph.rs`, `src/main.rs`).

The Rust code stores nodes as `Rc<RefCell<Node>>` sharing a mutable heap.
We embed the heap as an arena: a graph is a list of nodes, and a
`NodeCelled` reference is the node's index in that list.  Interior
mutability (cache writes, dependents pushes, input writes) becomes
explicit state passing on the arena.  The scalar type `f32` is embedded
as an abstract type `V` together with uninterpreted operation functions
(`Ops`): all structural claims (caching, invalidation, wiring) are
independent of the concrete IEEE-754 arithmetic.

Unbounded heap recursion (`compute`, `clear_cache`) is embedded with
structural fuel; on the graphs the API can actually build (operand
indices below the node, dependent indices above it) the chosen fuel is
proved sufficient, so the fuel-free Rust recursion and the embedding
agree on every constructible graph.  `panic!` is embedded as `none`.
-/

namespace CompGraph

/-- The `Node` enum of the source: `Input`, `Add`, `Mul`, `Sin`, `Pow`,
with operand references embedded as arena indices, the memo `cache`
slot, and the `dependents` list. -/
inductive Node (V : Type) where
  | Input (x : V) (dependents : List Nat)
  | Add (a b : Nat) (cache : Option V) (dependents : List Nat)
  | Mul (a b : Nat) (cache : Option V) (dependents : List Nat)
  | Sin (x : Nat) (cache : Option V) (dependents : List Nat)
  | Pow (a b : Nat) (cache : Option V) (dependents : List Nat)
  deriving DecidableEq

/-- The heap of nodes; a `NodeCelled` reference is an index into it. -/
abbrev Graph (V : Type) := List (Node V)

/-- The four numeric operators used by the source (`+`, `*`, `f32::sin`,
`f32::powf`), kept abstract: claims about the caching machinery hold for
any interpretation of the scalar arithmetic. -/
structure Ops (V : Type) where
  add : V → V → V
  mul : V → V → V
  sin : V → V
  pow : V → V → V

variable {V : Type}

/-- Source `Node::get_dependents` (lines 154-162). -/
def Node.get_dependents : Node V → List Nat
  | .Input _ d => d
  | .Add _ _ _ d => d
  | .Mul _ _ _ d => d
  | .Sin _ _ d => d
  | .Pow _ _ _ d => d

/-- Source `Node::get_cached_value` (lines 164-172): an `Input`'s value
is its own cache. -/
def Node.get_cached_value : Node V → Option V
  | .Input x _ => some x
  | .Add _ _ c _ => c
  | .Mul _ _ c _ => c
  | .Sin _ c _ => c
  | .Pow _ _ c _ => c

/-- The node-local part of `Node::save_to_cache` (source lines 174-182):
a no-op on `Input`, otherwise overwrites the cache slot. -/
def Node.save_to_cache : Node V → V → Node V
  | .Input x d, _ => .Input x d
  | .Add a b _ d, v => .Add a b (some v) d
  | .Mul a b _ d, v => .Mul a b (some v) d
  | .Sin x _ d, v => .Sin x (some v) d
  | .Pow a b _ d, v => .Pow a b (some v) d

/-- The node-local part of `Node::clear_cache` (source lines 140-147):
a no-op on `Input`, otherwise empties the cache slot. -/
def Node.clear_slot : Node V → Node V
  | .Input x d => .Input x d
  | .Add a b _ d => .Add a b none d
  | .Mul a b _ d => .Mul a b none d
  | .Sin x _ d => .Sin x none d
  | .Pow a b _ d => .Pow a b none d

/-- The node-local part of `Node::add_dependent` (source lines 133-138):
`Vec::push` on the dependents list. -/
def Node.add_dependent : Node V → Nat → Node V
  | .Input x d, j => .Input x (d ++ [j])
  | .Add a b c d, j => .Add a b c (d ++ [j])
  | .Mul a b c d, j => .Mul a b c (d ++ [j])
  | .Sin x c d, j => .Sin x c (d ++ [j])
  | .Pow a b c d, j => .Pow a b c (d ++ [j])

/-- The operand references a node holds (the match arms of `compute`,
source lines 107-113). -/
def Node.operands : Node V → List Nat
  | .Input _ _ => []
  | .Add a b _ _ => [a, b]
  | .Mul a b _ _ => [a, b]
  | .Sin x _ _ => [x]
  | .Pow a b _ _ => [a, b]

/-- Which variant a node is, for the `set` panic check (source line 123). -/
def Node.isInput : Node V → Bool
  | .Input _ _ => true
  | _ => false

/-- The cache-independent part of a node: variant tag, operand indices,
and (for `Input`) the stored value.  Pure evaluation depends only on
this. -/
inductive Shape (V : Type) where
  | input (x : V)
  | add (a b : Nat)
  | mul (a b : Nat)
  | sine (x : Nat)
  | pow (a b : Nat)
  deriving DecidableEq

/-- Project a node to its shape. -/
def Node.shape : Node V → Shape V
  | .Input x _ => .input x
  | .Add a b _ _ => .add a b
  | .Mul a b _ _ => .mul a b
  | .Sin x _ _ => .sine x
  | .Pow a b _ _ => .pow a b

/-- Dependents list of the node at index `i` (empty for a dangling
index). -/
def getDeps (g : Graph V) (i : Nat) : List Nat :=
  match g[i]? with
  | some n => n.get_dependents
  | none => []

/-- Operand list of the node at index `i`. -/
def operandsAt (g : Graph V) (i : Nat) : List Nat :=
  match g[i]? with
  | some n => n.operands
  | none => []

/-- Cached value (through `get_cached_value`) of the node at index `i`. -/
def getCachedAt (g : Graph V) (i : Nat) : Option V :=
  match g[i]? with
  | some n => n.get_cached_value
  | none => none

/-- Everything about a graph except the cache slots: per-node shape and
dependents.  `compute`, `clear_cache` and `add_dependent` preserve it. -/
def skeleton (g : Graph V) : List (Shape V × List Nat) :=
  g.map (fun n => (n.shape, n.get_dependents))

/-- The call `self.save_to_cache(new_value)` as a heap update at index `i`. -/
def saveToCache (g : Graph V) (i : Nat) (v : V) : Graph V :=
  match g[i]? with
  | some n => g.set i (n.save_to_cache v)
  | none => g

/-- The own-cache-clearing step of `self.clear_cache()` as a heap update. -/
def clearNodeAt (g : Graph V) (i : Nat) : Graph V :=
  match g[i]? with
  | some n => g.set i n.clear_slot
  | none => g

/-- The call `operand.add_dependent(res)` as a heap update at index `i`, pushing
the new consumer index `j`. -/
def addDependentAt (g : Graph V) (i : Nat) (j : Nat) : Graph V :=
  match g[i]? with
  | some n => g.set i (n.add_dependent j)
  | none => g

/-- Source `Node::clear_cache` (lines 140-152): clear the own cache
slot, then recursively clear every dependent.  The Rust recursion runs
on the heap without a bound; the embedding spends one unit of structural
fuel per recursion level (on constructible graphs dependent indices
strictly increase, so fuel `g.length` is proved sufficient). -/
def clearCacheF : Nat → Graph V → Nat → Graph V
  | 0, g, _ => g
  | fuel + 1, g, i =>
    let g1 := clearNodeAt g i
    (getDeps g1 i).foldl (fun acc j => clearCacheF fuel acc j) g1

/-- Full `clear_cache` entered at node `i` with the proved-sufficient fuel. -/
def clear_cache (g : Graph V) (i : Nat) : Graph V :=
  clearCacheF g.length g i

/-- Source `Node::compute` (lines 105-120): return the cached value on a
hit; on a miss recursively compute the operands (left to right),
apply the operator, store the result via `save_to_cache`, and return
it.  Fuel models the call stack; on constructible graphs operand
indices strictly decrease, so fuel `i + 1` is proved sufficient. -/
def computeF (ops : Ops V) : Nat → Graph V → Nat → Option (V × Graph V)
  | 0, _, _ => none
  | fuel + 1, g, i =>
    match g[i]? with
    | none => none
    | some n =>
      match n.get_cached_value with
      | some v => some (v, g)
      | none =>
        match n with
        | .Input x _ => some (x, saveToCache g i x)
        | .Add a b _ _ =>
          match computeF ops fuel g a with
          | none => none
          | some (va, g1) =>
            match computeF ops fuel g1 b with
            | none => none
            | some (vb, g2) => some (ops.add va vb, saveToCache g2 i (ops.add va vb))
        | .Mul a b _ _ =>
          match computeF ops fuel g a with
          | none => none
          | some (va, g1) =>
            match computeF ops fuel g1 b with
            | none => none
            | some (vb, g2) => some (ops.mul va vb, saveToCache g2 i (ops.mul va vb))
        | .Sin x _ _ =>
          match computeF ops fuel g x with
          | none => none
          | some (vx, g1) => some (ops.sin vx, saveToCache g1 i (ops.sin vx))
        | .Pow a b _ _ =>
          match computeF ops fuel g a with
          | none => none
          | some (va, g1) =>
            match computeF ops fuel g1 b with
            | none => none
            | some (vb, g2) => some (ops.pow va vb, saveToCache g2 i (ops.pow va vb))

/-- Full `compute` on node `i` with the proved-sufficient fuel. -/
def compute (ops : Ops V) (g : Graph V) (i : Nat) : Option (V × Graph V) :=
  computeF ops (i + 1) g i

/-- Source `Node::set` (lines 122-131): on an `Input`, store the new
value and run `clear_cache`; on any other variant, `panic!` — embedded
as `none`. -/
def set (g : Graph V) (i : Nat) (v : V) : Option (Graph V) :=
  match g[i]? with
  | some (.Input _ deps) => some (clear_cache (g.set i (.Input v deps)) i)
  | some _ => none
  | none => none

/-- Source `Node::create_input` (lines 38-45): allocate a fresh `Input`
with an empty dependents list; returns the new heap and the new index. -/
def create_input (g : Graph V) (x : V) : Graph V × Nat :=
  (g ++ [.Input x []], g.length)

/-- Source `Node::create_add` (lines 47-60): allocate `Add a b` with
empty cache and dependents, then push the new index onto `a`'s and then
`b`'s dependents. -/
def create_add (g : Graph V) (a b : Nat) : Graph V × Nat :=
  let i := g.length
  let g1 := g ++ [.Add a b none []]
  let g2 := addDependentAt g1 a i
  let g3 := addDependentAt g2 b i
  (g3, i)

/-- Source `Node::create_mul` (lines 62-75). -/
def create_mul (g : Graph V) (a b : Nat) : Graph V × Nat :=
  let i := g.length
  let g1 := g ++ [.Mul a b none []]
  let g2 := addDependentAt g1 a i
  let g3 := addDependentAt g2 b i
  (g3, i)

/-- Source `Node::create_sin` (lines 77-88). -/
def create_sin (g : Graph V) (x : Nat) : Graph V × Nat :=
  let i := g.length
  let g1 := g ++ [.Sin x none []]
  let g2 := addDependentAt g1 x i
  (g2, i)

/-- Source `Node::create_pow` (lines 90-103). -/
def create_pow (g : Graph V) (a b : Nat) : Graph V × Nat :=
  let i := g.length
  let g1 := g ++ [.Pow a b none []]
  let g2 := addDependentAt g1 a i
  let g3 := addDependentAt g2 b i
  (g3, i)

/-- Pure (cache-free) evaluation of node `i`: the value a freshly built
copy of the graph would compute.  Recursion is guarded by the
operand-below-node discipline that construction enforces, with fuel for
structural recursion; results are fuel-independent once `i < fuel`. -/
def denoteF (ops : Ops V) : Nat → Graph V → Nat → Option V
  | 0, _, _ => none
  | fuel + 1, g, i =>
    match g[i]? with
    | none => none
    | some (.Input x _) => some x
    | some (.Add a b _ _) =>
      if a < i ∧ b < i then
        match denoteF ops fuel g a, denoteF ops fuel g b with
        | some va, some vb => some (ops.add va vb)
        | _, _ => none
      else none
    | some (.Mul a b _ _) =>
      if a < i ∧ b < i then
        match denoteF ops fuel g a, denoteF ops fuel g b with
        | some va, some vb => some (ops.mul va vb)
        | _, _ => none
      else none
    | some (.Sin x _ _) =>
      if x < i then
        match denoteF ops fuel g x with
        | some vx => some (ops.sin vx)
        | none => none
      else none
    | some (.Pow a b _ _) =>
      if a < i ∧ b < i then
        match denoteF ops fuel g a, denoteF ops fuel g b with
        | some va, some vb => some (ops.pow va vb)
        | _, _ => none
      else none

/-- Pure evaluation with the canonical fuel. -/
def denote (ops : Ops V) (g : Graph V) (i : Nat) : Option V :=
  denoteF ops (i + 1) g i

/-- The graph rebuilt from scratch: identical wiring and input values,
every cache slot empty (`clear_slot` is the identity on `Input`). -/
def stripCaches (g : Graph V) : Graph V :=
  g.map Node.clear_slot

/-- Well-formedness that construction order enforces: every operand
reference points strictly below its node, every dependent reference
strictly above it and inside the arena.  This is the arena form of the
acyclicity invariant. -/
def WF (g : Graph V) : Prop :=
  ∀ i, i < g.length →
    (∀ a ∈ operandsAt g i, a < i) ∧ (∀ j ∈ getDeps g i, i < j ∧ j < g.length)

/-- Dependents completeness: every direct consumer of a node is recorded
in that node's dependents list. -/
def DepsComplete (g : Graph V) : Prop :=
  ∀ i, i < g.length → ∀ a ∈ operandsAt g i, i ∈ getDeps g a

/-- Dependents soundness: everything in a dependents list really is a
direct consumer. -/
def DepsSound (g : Graph V) : Prop :=
  ∀ a j, j ∈ getDeps g a → a ∈ operandsAt g j

/-- Cache coherence: every held cached value (an `Input`'s "cache" is
its value) equals the pure evaluation of its node. -/
def Coherent (ops : Ops V) (g : Graph V) : Prop :=
  ∀ j, j < g.length → ∀ v, getCachedAt g j = some v → denote ops g j = some v

/-- The full state invariant maintained by the API. -/
def Inv (ops : Ops V) (g : Graph V) : Prop :=
  WF g ∧ DepsComplete g ∧ DepsSound g ∧ Coherent ops g

/-- Forward reachability along dependent edges (the traversal of
`clear_cache`). -/
inductive DepReach (g : Graph V) : Nat → Nat → Prop where
  | refl (i : Nat) : DepReach g i i
  | step {i j k : Nat} : j ∈ getDeps g i → DepReach g j k → DepReach g i k

/-- Backward reachability along operand edges with the below-node guard:
`Consumes g n k` says node `n` transitively consumes node `k`. -/
inductive Consumes (g : Graph V) : Nat → Nat → Prop where
  | refl (i : Nat) : Consumes g i i
  | step {i a k : Nat} : a ∈ operandsAt g i → a < i → Consumes g a k → Consumes g i k

/-- Graph states reachable through the public API from the empty arena:
node construction on existing references, `compute`, and `set`. -/
inductive Reach (ops : Ops V) : Graph V → Prop where
  | empty : Reach ops []
  | createInput {g : Graph V} {x : V} : Reach ops g → Reach ops (create_input g x).1
  | createAdd {g : Graph V} {a b : Nat} :
      Reach ops g → a < g.length → b < g.length → Reach ops (create_add g a b).1
  | createMul {g : Graph V} {a b : Nat} :
      Reach ops g → a < g.length → b < g.length → Reach ops (create_mul g a b).1
  | createSin {g : Graph V} {x : Nat} :
      Reach ops g → x < g.length → Reach ops (create_sin g x).1
  | createPow {g : Graph V} {a b : Nat} :
      Reach ops g → a < g.length → b < g.length → Reach ops (create_pow g a b).1
  | computeStep {g g' : Graph V} {i : Nat} {v : V} :
      Reach ops g → compute ops g i = some (v, g') → Reach ops g'
  | setStep {g g' : Graph V} {i : Nat} {v : V} :
      Reach ops g → set g i v = some g' → Reach ops g'

/-- The operand indices a shape carries. -/
def shapeOperands : Shape V → List Nat
  | .input _ => []
  | .add a b => [a, b]
  | .mul a b => [a, b]
  | .sine x => [x]
  | .pow a b => [a, b]

instance (g : Graph V) : Decidable (WF g) :=
  inferInstanceAs (Decidable (∀ i, i < g.length →
    (∀ a ∈ operandsAt g i, a < i) ∧ (∀ j ∈ getDeps g i, i < j ∧ j < g.length)))

instance (g : Graph V) : Decidable (DepsComplete g) :=
  inferInstanceAs (Decidable (∀ i, i < g.length → ∀ a ∈ operandsAt g i, i ∈ getDeps g a))

/-- A concrete interpretation of the scalar operations, used only to
instantiate the general theorems in witnesses. -/
def opsZ : Ops Int :=
  ⟨fun a b => a + b, fun a b => a * b, fun a => -a, fun a b => a - b⟩

/-- Witness fixture: the diamond graph
`x0, x1, n2 = x0 + x1, n3 = sin n2, n4 = n2 * n3` built through the
constructors. -/
def wG : Graph Int :=
  (create_mul (create_sin (create_add (create_input
    (create_input [] 2).1 3).1 0 1).1 2).1 2 3).1

/-- Fixture state after one full `compute` on the root of `wG`. -/
def wGc : Graph Int :=
  [.Input 2 [2], .Input 3 [2], .Add 0 1 (some 5) [3, 4],
    .Sin 2 (some (-5)) [4], .Mul 2 3 (some (-25)) []]

/-- Fixture state after `set` of value 7 on input 0 of `wGc`. -/
def wGs : Graph Int :=
  [.Input 7 [2], .Input 3 [2], .Add 0 1 none [3, 4], .Sin 2 none [4],
    .Mul 2 3 none []]


/-! ### Node-level lemmas -/

theorem Node.shape_save (n : Node V) (v : V) : (n.save_to_cache v).shape = n.shape := by
  cases n <;> rfl

theorem Node.deps_save (n : Node V) (v : V) :
    (n.save_to_cache v).get_dependents = n.get_dependents := by
  cases n <;> rfl

theorem Node.shape_clear (n : Node V) : n.clear_slot.shape = n.shape := by
  cases n <;> rfl

theorem Node.deps_clear (n : Node V) : n.clear_slot.get_dependents = n.get_dependents := by
  cases n <;> rfl

theorem Node.clear_clear (n : Node V) : n.clear_slot.clear_slot = n.clear_slot := by
  cases n <;> rfl

theorem Node.shape_addDep (n : Node V) (j : Nat) : (n.add_dependent j).shape = n.shape := by
  cases n <;> rfl

theorem Node.cached_addDep (n : Node V) (j : Nat) :
    (n.add_dependent j).get_cached_value = n.get_cached_value := by
  cases n <;> rfl

theorem Node.deps_addDep (n : Node V) (j : Nat) :
    (n.add_dependent j).get_dependents = n.get_dependents ++ [j] := by
  cases n <;> rfl

theorem Node.operands_shape (n : Node V) : n.operands = shapeOperands n.shape := by
  cases n <;> rfl

theorem Node.cached_save (n : Node V) (v : V) (h : n.isInput = false) :
    (n.save_to_cache v).get_cached_value = some v := by
  cases n <;> simp_all [Node.isInput, Node.save_to_cache, Node.get_cached_value]

theorem Node.save_input (n : Node V) (v : V) (h : n.isInput = true) :
    n.save_to_cache v = n := by
  cases n <;> simp_all [Node.isInput, Node.save_to_cache]

theorem Node.cached_clear (n : Node V) (h : n.isInput = false) :
    n.clear_slot.get_cached_value = none := by
  cases n <;> simp_all [Node.isInput, Node.clear_slot, Node.get_cached_value]

theorem Node.clear_input (n : Node V) (h : n.isInput = true) : n.clear_slot = n := by
  cases n <;> simp_all [Node.isInput, Node.clear_slot]

theorem Node.eq_of_parts {n n' : Node V} (hs : n.shape = n'.shape)
    (hd : n.get_dependents = n'.get_dependents)
    (hc : n.get_cached_value = n'.get_cached_value) : n = n' := by
  cases n <;> cases n' <;>
    simp_all [Node.shape, Node.get_dependents, Node.get_cached_value]

theorem Node.shape_input_inv {n : Node V} {x : V} (h : n.shape = .input x) :
    ∃ d, n = .Input x d := by
  cases n <;> simp_all [Node.shape]

theorem Node.shape_add_inv {n : Node V} {a b : Nat} (h : n.shape = .add a b) :
    ∃ c d, n = .Add a b c d := by
  cases n <;> simp_all [Node.shape]

theorem Node.shape_mul_inv {n : Node V} {a b : Nat} (h : n.shape = .mul a b) :
    ∃ c d, n = .Mul a b c d := by
  cases n <;> simp_all [Node.shape]

theorem Node.shape_sine_inv {n : Node V} {x : Nat} (h : n.shape = .sine x) :
    ∃ c d, n = .Sin x c d := by
  cases n <;> simp_all [Node.shape]

theorem Node.shape_pow_inv {n : Node V} {a b : Nat} (h : n.shape = .pow a b) :
    ∃ c d, n = .Pow a b c d := by
  cases n <;> simp_all [Node.shape]

theorem Node.isInput_of_shape {n n' : Node V} (h : n.shape = n'.shape) :
    n.isInput = n'.isInput := by
  cases n <;> cases n' <;> simp_all [Node.shape, Node.isInput]

/-! ### List update helpers -/

theorem set_getElem?_self {α : Type} {l : List α} {i : Nat} {a : α}
    (h : l[i]? = some a) : l.set i a = l := by
  apply List.ext_getElem?
  intro j
  rcases eq_or_ne i j with rfl | hne
  · rw [List.getElem?_set_self (List.getElem?_eq_some.mp h).1, h]
  · rw [List.getElem?_set_ne hne]

theorem getElem?_saveToCache_self (g : Graph V) (i : Nat) (v : V) :
    (saveToCache g i v)[i]? = (g[i]?).map (fun n => n.save_to_cache v) := by
  unfold saveToCache
  cases hm : g[i]? with
  | none => simp [hm]
  | some n =>
    have hlt : i < g.length := (List.getElem?_eq_some.mp hm).1
    simp [List.getElem?_set_self hlt]

theorem getElem?_saveToCache_ne (g : Graph V) {i j : Nat} (v : V) (h : i ≠ j) :
    (saveToCache g i v)[j]? = g[j]? := by
  unfold saveToCache
  cases hm : g[i]? with
  | none => rfl
  | some n => rw [List.getElem?_set_ne h]

theorem length_saveToCache (g : Graph V) (i : Nat) (v : V) :
    (saveToCache g i v).length = g.length := by
  unfold saveToCache
  cases hm : g[i]? <;> simp

theorem getElem?_clearNodeAt_self (g : Graph V) (i : Nat) :
    (clearNodeAt g i)[i]? = (g[i]?).map Node.clear_slot := by
  unfold clearNodeAt
  cases hm : g[i]? with
  | none => simp [hm]
  | some n =>
    have hlt : i < g.length := (List.getElem?_eq_some.mp hm).1
    simp [List.getElem?_set_self hlt]

theorem getElem?_clearNodeAt_ne (g : Graph V) {i j : Nat} (h : i ≠ j) :
    (clearNodeAt g i)[j]? = g[j]? := by
  unfold clearNodeAt
  cases hm : g[i]? with
  | none => rfl
  | some n => rw [List.getElem?_set_ne h]

theorem getElem?_addDependentAt_self (g : Graph V) (i : Nat) (j : Nat) :
    (addDependentAt g i j)[i]? = (g[i]?).map (fun n => n.add_dependent j) := by
  unfold addDependentAt
  cases hm : g[i]? with
  | none => simp [hm]
  | some n =>
    have hlt : i < g.length := (List.getElem?_eq_some.mp hm).1
    simp [List.getElem?_set_self hlt]

theorem getElem?_addDependentAt_ne (g : Graph V) {i k : Nat} (j : Nat) (h : i ≠ k) :
    (addDependentAt g i j)[k]? = g[k]? := by
  unfold addDependentAt
  cases hm : g[i]? with
  | none => rfl
  | some n => rw [List.getElem?_set_ne h]

theorem length_addDependentAt (g : Graph V) (i j : Nat) :
    (addDependentAt g i j).length = g.length := by
  unfold addDependentAt
  cases hm : g[i]? <;> simp

/-! ### Skeleton lemmas -/

theorem skeleton_length (g : Graph V) : (skeleton g).length = g.length := by
  simp [skeleton]

theorem getElem?_skeleton (g : Graph V) (i : Nat) :
    (skeleton g)[i]? = (g[i]?).map (fun n => (n.shape, n.get_dependents)) := by
  simp [skeleton, List.getElem?_map]

theorem length_eq_of_skel {g g' : Graph V} (h : skeleton g = skeleton g') :
    g.length = g'.length := by
  have := congrArg List.length h
  simpa [skeleton] using this

theorem getDeps_eq_of_skel {g g' : Graph V} (h : skeleton g = skeleton g') (k : Nat) :
    getDeps g k = getDeps g' k := by
  have hk := congrArg (fun l => l[k]?) h
  simp only [getElem?_skeleton] at hk
  unfold getDeps
  cases hm : g[k]? <;> cases hm' : g'[k]? <;> simp_all

theorem shape_eq_of_skel {g g' : Graph V} (h : skeleton g = skeleton g') (k : Nat) :
    (g[k]?).map Node.shape = (g'[k]?).map Node.shape := by
  have hk := congrArg (fun l => l[k]?) h
  simp only [getElem?_skeleton] at hk
  cases hm : g[k]? <;> cases hm' : g'[k]? <;> simp_all

theorem operandsAt_eq_of_shape {g g' : Graph V}
    (h : (g[k]?).map Node.shape = (g'[k]?).map Node.shape) :
    operandsAt g k = operandsAt g' k := by
  unfold operandsAt
  cases hm : g[k]? <;> cases hm' : g'[k]? <;> simp_all [Node.operands_shape]

theorem skeleton_set_of (g : Graph V) {i : Nat} {n n' : Node V} (hm : g[i]? = some n)
    (hs : n'.shape = n.shape) (hd : n'.get_dependents = n.get_dependents) :
    skeleton (g.set i n') = skeleton g := by
  unfold skeleton
  rw [List.map_set, hs, hd]
  apply set_getElem?_self
  rw [List.getElem?_map, hm]
  rfl

theorem skeleton_saveToCache (g : Graph V) (i : Nat) (v : V) :
    skeleton (saveToCache g i v) = skeleton g := by
  unfold saveToCache
  cases hm : g[i]? with
  | none => rfl
  | some n => exact skeleton_set_of g hm (Node.shape_save n v) (Node.deps_save n v)

theorem skeleton_clearNodeAt (g : Graph V) (i : Nat) :
    skeleton (clearNodeAt g i) = skeleton g := by
  unfold clearNodeAt
  cases hm : g[i]? with
  | none => rfl
  | some n => exact skeleton_set_of g hm (Node.shape_clear n) (Node.deps_clear n)

/-! ### Transport of the structural predicates -/

theorem WF_congr {g g' : Graph V} (hlen : g.length = g'.length)
    (hops : ∀ k, operandsAt g k = operandsAt g' k)
    (hdeps : ∀ k, getDeps g k = getDeps g' k) (h : WF g) : WF g' := by
  intro i hi
  obtain ⟨h1, h2⟩ := h i (by omega)
  refine ⟨fun a ha => h1 a ?_, fun j hj => ?_⟩
  · rw [hops i]; exact ha
  · rw [← hdeps i] at hj
    have := h2 j hj
    omega

theorem DC_congr {g g' : Graph V} (hlen : g.length = g'.length)
    (hops : ∀ k, operandsAt g k = operandsAt g' k)
    (hdeps : ∀ k, getDeps g k = getDeps g' k) (h : DepsComplete g) : DepsComplete g' := by
  intro i hi a ha
  rw [← hdeps a]
  exact h i (by omega) a (by rw [hops i]; exact ha)

theorem DS_congr {g g' : Graph V}
    (hops : ∀ k, operandsAt g k = operandsAt g' k)
    (hdeps : ∀ k, getDeps g k = getDeps g' k) (h : DepsSound g) : DepsSound g' := by
  intro a j hj
  rw [← hops j]
  exact h a j (by rw [hdeps a]; exact hj)

theorem WF_of_skel {g g' : Graph V} (h : skeleton g = skeleton g') (hw : WF g) : WF g' :=
  WF_congr (length_eq_of_skel h)
    (fun k => operandsAt_eq_of_shape (shape_eq_of_skel h k))
    (getDeps_eq_of_skel h) hw

theorem DC_of_skel {g g' : Graph V} (h : skeleton g = skeleton g') (hw : DepsComplete g) :
    DepsComplete g' :=
  DC_congr (length_eq_of_skel h)
    (fun k => operandsAt_eq_of_shape (shape_eq_of_skel h k))
    (getDeps_eq_of_skel h) hw

theorem DS_of_skel {g g' : Graph V} (h : skeleton g = skeleton g') (hw : DepsSound g) :
    DepsSound g' :=
  DS_congr (fun k => operandsAt_eq_of_shape (shape_eq_of_skel h k))
    (getDeps_eq_of_skel h) hw

/-! ### Reachability lemmas -/

theorem getDeps_mem_bounds {g : Graph V} (hWF : WF g) {i j : Nat} (h : j ∈ getDeps g i) :
    i < j ∧ j < g.length := by
  have hi : i < g.length := by
    by_contra hc
    push_neg at hc
    unfold getDeps at h
    rw [List.getElem?_eq_none hc] at h
    simp at h
  exact (hWF i hi).2 j h

theorem operandsAt_mem_length {g : Graph V} {i a : Nat} (h : a ∈ operandsAt g i) :
    i < g.length := by
  by_contra hc
  push_neg at hc
  unfold operandsAt at h
  rw [List.getElem?_eq_none hc] at h
  simp at h

theorem depReach_le {g : Graph V} (hWF : WF g) {i j : Nat} (h : DepReach g i j) : i ≤ j := by
  induction h with
  | refl => exact le_refl _
  | step hmem _ ih =>
    have := getDeps_mem_bounds hWF hmem
    omega

theorem depReach_lt_length {g : Graph V} (hWF : WF g) {i j : Nat} (hi : i < g.length)
    (h : DepReach g i j) : j < g.length := by
  induction h with
  | refl => exact hi
  | step hmem _ ih => exact ih (getDeps_mem_bounds hWF hmem).2

theorem depReach_congr {g g' : Graph V} (hdeps : ∀ k, getDeps g k = getDeps g' k)
    {i j : Nat} (h : DepReach g i j) : DepReach g' i j := by
  induction h with
  | refl => exact .refl _
  | step hmem _ ih =>
    refine .step ?_ ih
    rw [← hdeps _]
    exact hmem

theorem depReach_snoc {g : Graph V} {i a j : Nat} (h : DepReach g i a) :
    j ∈ getDeps g a → DepReach g i j := by
  induction h with
  | refl => exact fun hj => .step hj (.refl _)
  | step hmem _ ih => exact fun hj => .step hmem (ih hj)

theorem consumes_congr {g g' : Graph V} (hops : ∀ k, operandsAt g k = operandsAt g' k)
    {i j : Nat} (h : Consumes g i j) : Consumes g' i j := by
  induction h with
  | refl => exact .refl _
  | step hmem hlt _ ih =>
    refine .step ?_ hlt ih
    rw [← hops _]
    exact hmem

theorem consumes_to_depReach {g : Graph V} (hDC : DepsComplete g)
    {n k : Nat} (h : Consumes g n k) : DepReach g k n := by
  induction h with
  | refl => exact .refl _
  | step hmem hlt _ ih =>
    exact depReach_snoc ih (hDC _ (operandsAt_mem_length hmem) _ hmem)

/-! ### Pure evaluation lemmas -/

theorem denoteF_succ (ops : Ops V) (fuel : Nat) (g : Graph V) (i : Nat) :
    denoteF ops (fuel + 1) g i =
      match g[i]? with
      | none => none
      | some (.Input x _) => some x
      | some (.Add a b _ _) =>
        if a < i ∧ b < i then
          match denoteF ops fuel g a, denoteF ops fuel g b with
          | some va, some vb => some (ops.add va vb)
          | _, _ => none
        else none
      | some (.Mul a b _ _) =>
        if a < i ∧ b < i then
          match denoteF ops fuel g a, denoteF ops fuel g b with
          | some va, some vb => some (ops.mul va vb)
          | _, _ => none
        else none
      | some (.Sin x _ _) =>
        if x < i then
          match denoteF ops fuel g x with
          | some vx => some (ops.sin vx)
          | none => none
        else none
      | some (.Pow a b _ _) =>
        if a < i ∧ b < i then
          match denoteF ops fuel g a, denoteF ops fuel g b with
          | some va, some vb => some (ops.pow va vb)
          | _, _ => none
        else none := rfl

theorem denoteF_fuel {ops : Ops V} {g : Graph V} :
    ∀ {fuel fuel' i : Nat}, i < fuel → i < fuel' →
      denoteF ops fuel g i = denoteF ops fuel' g i := by
  intro fuel
  induction fuel with
  | zero => omega
  | succ f ih =>
    intro fuel' i hi hi'
    cases fuel' with
    | zero => omega
    | succ f' =>
      rw [denoteF_succ, denoteF_succ]
      cases hm : g[i]? with
      | none => rfl
      | some n =>
        cases n with
        | Input x d => rfl
        | Add a b c d =>
          by_cases hab : a < i ∧ b < i
          · simp only [if_pos hab]
            rw [ih (show a < f by omega) (show a < f' by omega),
              ih (show b < f by omega) (show b < f' by omega)]
          · simp only [if_neg hab]
        | Mul a b c d =>
          by_cases hab : a < i ∧ b < i
          · simp only [if_pos hab]
            rw [ih (show a < f by omega) (show a < f' by omega),
              ih (show b < f by omega) (show b < f' by omega)]
          · simp only [if_neg hab]
        | Sin x c d =>
          by_cases hx : x < i
          · simp only [if_pos hx]
            rw [ih (show x < f by omega) (show x < f' by omega)]
          · simp only [if_neg hx]
        | Pow a b c d =>
          by_cases hab : a < i ∧ b < i
          · simp only [if_pos hab]
            rw [ih (show a < f by omega) (show a < f' by omega),
              ih (show b < f by omega) (show b < f' by omega)]
          · simp only [if_neg hab]

theorem denote_unfold (ops : Ops V) (g : Graph V) (i : Nat) :
    denote ops g i =
      match g[i]? with
      | none => none
      | some (.Input x _) => some x
      | some (.Add a b _ _) =>
        if a < i ∧ b < i then
          match denote ops g a, denote ops g b with
          | some va, some vb => some (ops.add va vb)
          | _, _ => none
        else none
      | some (.Mul a b _ _) =>
        if a < i ∧ b < i then
          match denote ops g a, denote ops g b with
          | some va, some vb => some (ops.mul va vb)
          | _, _ => none
        else none
      | some (.Sin x _ _) =>
        if x < i then
          match denote ops g x with
          | some vx => some (ops.sin vx)
          | none => none
        else none
      | some (.Pow a b _ _) =>
        if a < i ∧ b < i then
          match denote ops g a, denote ops g b with
          | some va, some vb => some (ops.pow va vb)
          | _, _ => none
        else none := by
  unfold denote
  rw [denoteF_succ]
  cases hm : g[i]? with
  | none => rfl
  | some n =>
    cases n with
    | Input x d => rfl
    | Add a b c d =>
      by_cases hab : a < i ∧ b < i
      · simp only [if_pos hab]
        rw [denoteF_fuel hab.1 (Nat.lt_succ_self a), denoteF_fuel hab.2 (Nat.lt_succ_self b)]
      · simp only [if_neg hab]
    | Mul a b c d =>
      by_cases hab : a < i ∧ b < i
      · simp only [if_pos hab]
        rw [denoteF_fuel hab.1 (Nat.lt_succ_self a), denoteF_fuel hab.2 (Nat.lt_succ_self b)]
      · simp only [if_neg hab]
    | Sin x c d =>
      by_cases hx : x < i
      · simp only [if_pos hx]
        rw [denoteF_fuel hx (Nat.lt_succ_self x)]
      · simp only [if_neg hx]
    | Pow a b c d =>
      by_cases hab : a < i ∧ b < i
      · simp only [if_pos hab]
        rw [denoteF_fuel hab.1 (Nat.lt_succ_self a), denoteF_fuel hab.2 (Nat.lt_succ_self b)]
      · simp only [if_neg hab]

theorem denote_input {ops : Ops V} {g : Graph V} {i : Nat} {x : V} {d : List Nat}
    (hm : g[i]? = some (.Input x d)) : denote ops g i = some x := by
  rw [denote_unfold ops g i, hm]

theorem denote_none {ops : Ops V} {g : Graph V} {i : Nat}
    (hm : g[i]? = none) : denote ops g i = none := by
  rw [denote_unfold ops g i, hm]

theorem denote_add {ops : Ops V} {g : Graph V} {i a b : Nat} {c : Option V} {d : List Nat}
    (hm : g[i]? = some (.Add a b c d)) (ha : a < i) (hb : b < i) :
    denote ops g i =
      match denote ops g a, denote ops g b with
      | some va, some vb => some (ops.add va vb)
      | _, _ => none := by
  rw [denote_unfold ops g i, hm]
  simp only [if_pos (And.intro ha hb)]

theorem denote_mul {ops : Ops V} {g : Graph V} {i a b : Nat} {c : Option V} {d : List Nat}
    (hm : g[i]? = some (.Mul a b c d)) (ha : a < i) (hb : b < i) :
    denote ops g i =
      match denote ops g a, denote ops g b with
      | some va, some vb => some (ops.mul va vb)
      | _, _ => none := by
  rw [denote_unfold ops g i, hm]
  simp only [if_pos (And.intro ha hb)]

theorem denote_sine {ops : Ops V} {g : Graph V} {i x : Nat} {c : Option V} {d : List Nat}
    (hm : g[i]? = some (.Sin x c d)) (hx : x < i) :
    denote ops g i =
      match denote ops g x with
      | some vx => some (ops.sin vx)
      | none => none := by
  rw [denote_unfold ops g i, hm]
  simp only [if_pos hx]

theorem denote_pow {ops : Ops V} {g : Graph V} {i a b : Nat} {c : Option V} {d : List Nat}
    (hm : g[i]? = some (.Pow a b c d)) (ha : a < i) (hb : b < i) :
    denote ops g i =
      match denote ops g a, denote ops g b with
      | some va, some vb => some (ops.pow va vb)
      | _, _ => none := by
  rw [denote_unfold ops g i, hm]
  simp only [if_pos (And.intro ha hb)]

theorem getElem?_shape_some {g' : Graph V} {i : Nat} {s : Shape V}
    (h : (g'[i]?).map Node.shape = some s) :
    ∃ n', g'[i]? = some n' ∧ n'.shape = s := by
  cases hm' : g'[i]? with
  | none => rw [hm'] at h; simp at h
  | some n' =>
    rw [hm'] at h
    simp only [Option.map_some'] at h
    exact ⟨n', rfl, by injection h⟩

theorem getElem?_shape_none {g' : Graph V} {i : Nat}
    (h : (g'[i]?).map Node.shape = none) : g'[i]? = none := by
  cases hm' : g'[i]? with
  | none => rfl
  | some n' => rw [hm'] at h; simp at h

theorem denote_congr {ops : Ops V} {g g' : Graph V} :
    ∀ i, (∀ k, Consumes g i k → (g'[k]?).map Node.shape = (g[k]?).map Node.shape) →
      denote ops g' i = denote ops g i := by
  intro i
  induction i using Nat.strong_induction_on with
  | _ i ih =>
    intro h
    have hi := h i (Consumes.refl i)
    rw [denote_unfold ops g' i, denote_unfold ops g i]
    cases hm : g[i]? with
    | none =>
      rw [hm] at hi
      simp only [Option.map_none'] at hi
      rw [getElem?_shape_none hi]
    | some n =>
      rw [hm] at hi
      simp only [Option.map_some'] at hi
      cases n with
      | Input x d =>
        simp only [Node.shape] at hi
        obtain ⟨n', hm', hs⟩ := getElem?_shape_some hi
        obtain ⟨d', rfl⟩ := Node.shape_input_inv hs
        rw [hm']
      | Add a b c d =>
        simp only [Node.shape] at hi
        obtain ⟨n', hm', hs⟩ := getElem?_shape_some hi
        obtain ⟨c', d', rfl⟩ := Node.shape_add_inv hs
        rw [hm']
        dsimp only
        by_cases hab : a < i ∧ b < i
        · rw [if_pos hab, if_pos hab]
          have hopa : a ∈ operandsAt g i := by
            unfold operandsAt; rw [hm]; simp [Node.operands]
          have hopb : b ∈ operandsAt g i := by
            unfold operandsAt; rw [hm]; simp [Node.operands]
          rw [ih a hab.1 (fun k hk => h k (Consumes.step hopa hab.1 hk)),
            ih b hab.2 (fun k hk => h k (Consumes.step hopb hab.2 hk))]
        · rw [if_neg hab, if_neg hab]
      | Mul a b c d =>
        simp only [Node.shape] at hi
        obtain ⟨n', hm', hs⟩ := getElem?_shape_some hi
        obtain ⟨c', d', rfl⟩ := Node.shape_mul_inv hs
        rw [hm']
        dsimp only
        by_cases hab : a < i ∧ b < i
        · rw [if_pos hab, if_pos hab]
          have hopa : a ∈ operandsAt g i := by
            unfold operandsAt; rw [hm]; simp [Node.operands]
          have hopb : b ∈ operandsAt g i := by
            unfold operandsAt; rw [hm]; simp [Node.operands]
          rw [ih a hab.1 (fun k hk => h k (Consumes.step hopa hab.1 hk)),
            ih b hab.2 (fun k hk => h k (Consumes.step hopb hab.2 hk))]
        · rw [if_neg hab, if_neg hab]
      | Sin x c d =>
        simp only [Node.shape] at hi
        obtain ⟨n', hm', hs⟩ := getElem?_shape_some hi
        obtain ⟨c', d', rfl⟩ := Node.shape_sine_inv hs
        rw [hm']
        dsimp only
        by_cases hx : x < i
        · rw [if_pos hx, if_pos hx]
          have hopx : x ∈ operandsAt g i := by
            unfold operandsAt; rw [hm]; simp [Node.operands]
          rw [ih x hx (fun k hk => h k (Consumes.step hopx hx hk))]
        · rw [if_neg hx, if_neg hx]
      | Pow a b c d =>
        simp only [Node.shape] at hi
        obtain ⟨n', hm', hs⟩ := getElem?_shape_some hi
        obtain ⟨c', d', rfl⟩ := Node.shape_pow_inv hs
        rw [hm']
        dsimp only
        by_cases hab : a < i ∧ b < i
        · rw [if_pos hab, if_pos hab]
          have hopa : a ∈ operandsAt g i := by
            unfold operandsAt; rw [hm]; simp [Node.operands]
          have hopb : b ∈ operandsAt g i := by
            unfold operandsAt; rw [hm]; simp [Node.operands]
          rw [ih a hab.1 (fun k hk => h k (Consumes.step hopa hab.1 hk)),
            ih b hab.2 (fun k hk => h k (Consumes.step hopb hab.2 hk))]
        · rw [if_neg hab, if_neg hab]

theorem denote_of_skel {ops : Ops V} {g g' : Graph V} (h : skeleton g = skeleton g')
    (i : Nat) : denote ops g' i = denote ops g i :=
  denote_congr i (fun k _ => shape_eq_of_skel h.symm k)

/-! ### Cache invalidation: skeleton preservation and pointwise action -/

theorem clearCacheF_succ (fuel : Nat) (g : Graph V) (i : Nat) :
    clearCacheF (fuel + 1) g i =
      (getDeps (clearNodeAt g i) i).foldl (fun acc j => clearCacheF fuel acc j)
        (clearNodeAt g i) := rfl

theorem clearCacheF_skel : ∀ (fuel : Nat) (g : Graph V) (i : Nat),
    skeleton (clearCacheF fuel g i) = skeleton g := by
  intro fuel
  induction fuel with
  | zero => intro g i; rfl
  | succ f ih =>
    intro g i
    rw [clearCacheF_succ]
    have hfold : ∀ (l : List Nat) (acc : Graph V), skeleton acc = skeleton g →
        skeleton (l.foldl (fun acc j => clearCacheF f acc j) acc) = skeleton g := by
      intro l
      induction l with
      | nil => intro acc h; exact h
      | cons d t iht =>
        intro acc h
        exact iht _ (by rw [ih acc d]; exact h)
    exact hfold _ _ (skeleton_clearNodeAt g i)

theorem clearCacheF_getElem : ∀ (fuel : Nat) (g : Graph V) (i : Nat), WF g →
    i < g.length → g.length ≤ fuel + i → ∀ j,
      (DepReach g i j → (clearCacheF fuel g i)[j]? = (g[j]?).map Node.clear_slot) ∧
      (¬DepReach g i j → (clearCacheF fuel g i)[j]? = g[j]?) := by
  intro fuel
  induction fuel with
  | zero =>
    intro g i hWF hi hlen j
    omega
  | succ f ih =>
    intro g i hWF hi hlen j
    rw [clearCacheF_succ]
    have hskel1 : skeleton (clearNodeAt g i) = skeleton g := skeleton_clearNodeAt g i
    have hdeps1 : getDeps (clearNodeAt g i) i = getDeps g i := getDeps_eq_of_skel hskel1 i
    -- generic fold lemma at the fixed target index `j`
    have hfold : ∀ (l : List Nat), (∀ d ∈ l, d ∈ getDeps g i) → ∀ (acc : Graph V),
        skeleton acc = skeleton g →
        (acc[j]? = g[j]? ∨ acc[j]? = (g[j]?).map Node.clear_slot) →
        (((∃ d ∈ l, DepReach g d j) →
            (l.foldl (fun acc j => clearCacheF f acc j) acc)[j]? =
              (g[j]?).map Node.clear_slot) ∧
          ((∀ d ∈ l, ¬DepReach g d j) →
            (l.foldl (fun acc j => clearCacheF f acc j) acc)[j]? = acc[j]?)) := by
      intro l
      induction l with
      | nil =>
        intro _ acc _ _
        exact ⟨fun h => absurd h (by simp), fun _ => rfl⟩
      | cons d t iht =>
        intro hsub acc hskel hAC
        simp only [List.foldl_cons]
        have hd : d ∈ getDeps g i := hsub d (List.mem_cons_self d t)
        have hdb := getDeps_mem_bounds hWF hd
        have hWFacc : WF acc := WF_of_skel hskel.symm hWF
        have hlenacc : acc.length = g.length := length_eq_of_skel hskel
        have hstep := ih acc d hWFacc (by omega) (by omega) j
        have hdr : DepReach acc d j ↔ DepReach g d j :=
          ⟨depReach_congr (fun k => getDeps_eq_of_skel hskel k),
            depReach_congr (fun k => (getDeps_eq_of_skel hskel k).symm)⟩
        have hskel' : skeleton (clearCacheF f acc d) = skeleton g := by
          rw [clearCacheF_skel]; exact hskel
        by_cases hreach : DepReach g d j
        · have h1 : (clearCacheF f acc d)[j]? = (acc[j]?).map Node.clear_slot :=
            hstep.1 (hdr.mpr hreach)
          have hC : (clearCacheF f acc d)[j]? = (g[j]?).map Node.clear_slot := by
            rcases hAC with h | h
            · rw [h1, h]
            · rw [h1, h, Option.map_map]
              congr 1
              funext n
              exact Node.clear_clear n
          have hrec := iht (fun d' hd' => hsub d' (List.mem_cons_of_mem d hd'))
            (clearCacheF f acc d) hskel' (Or.inr hC)
          constructor
          · intro _
            by_cases h2 : ∃ d' ∈ t, DepReach g d' j
            · exact hrec.1 h2
            · push_neg at h2
              rw [hrec.2 h2, hC]
          · intro hall
            exact absurd hreach (hall d (List.mem_cons_self d t))
        · have h1 : (clearCacheF f acc d)[j]? = acc[j]? :=
            hstep.2 (fun hc => hreach (hdr.mp hc))
          have hrec := iht (fun d' hd' => hsub d' (List.mem_cons_of_mem d hd'))
            (clearCacheF f acc d) hskel' (by rw [h1]; exact hAC)
          constructor
          · rintro ⟨d', hd', hr'⟩
            rcases List.mem_cons.mp hd' with rfl | hd'
            · exact absurd hr' hreach
            · exact hrec.1 ⟨d', hd', hr'⟩
          · intro hall
            rw [hrec.2 (fun d' hd' => hall d' (List.mem_cons_of_mem d hd')), h1]
    constructor
    · intro hreach
      cases hreach with
      | refl =>
        have h1 : (clearNodeAt g i)[i]? = (g[i]?).map Node.clear_slot :=
          getElem?_clearNodeAt_self g i
        have hall : ∀ d ∈ getDeps (clearNodeAt g i) i, ¬DepReach g d i := by
          intro d hd hr
          rw [hdeps1] at hd
          have h2 := getDeps_mem_bounds hWF hd
          have h3 := depReach_le hWF hr
          omega
        have := (hfold _ (fun d hd => by rw [hdeps1] at hd; exact hd)
          (clearNodeAt g i) hskel1 (Or.inr h1)).2 hall
        rw [this, h1]
      | step hd hr =>
        apply (hfold _ (fun d' hd' => by rw [hdeps1] at hd'; exact hd')
          (clearNodeAt g i) hskel1 ?_).1
        · exact ⟨_, by rw [hdeps1]; exact hd, hr⟩
        · rcases eq_or_ne j i with rfl | hji
          · exact Or.inr (getElem?_clearNodeAt_self g j)
          · exact Or.inl (getElem?_clearNodeAt_ne g (Ne.symm hji))
    · intro hnreach
      have hji : j ≠ i := fun he => hnreach (by rw [he]; exact DepReach.refl i)
      have h1 : (clearNodeAt g i)[j]? = g[j]? := getElem?_clearNodeAt_ne g (Ne.symm hji)
      have hall : ∀ d ∈ getDeps (clearNodeAt g i) i, ¬DepReach g d j := by
        intro d hd hr
        rw [hdeps1] at hd
        exact hnreach (DepReach.step hd hr)
      rw [(hfold _ (fun d hd => by rw [hdeps1] at hd; exact hd)
        (clearNodeAt g i) hskel1 (Or.inl h1)).2 hall, h1]

theorem clear_cache_reach {g : Graph V} {i j : Nat} (hWF : WF g) (hi : i < g.length)
    (hr : DepReach g i j) :
    (clear_cache g i)[j]? = (g[j]?).map Node.clear_slot :=
  (clearCacheF_getElem g.length g i hWF hi (by omega) j).1 hr

theorem clear_cache_frame {g : Graph V} {i j : Nat} (hWF : WF g) (hi : i < g.length)
    (hr : ¬DepReach g i j) : (clear_cache g i)[j]? = g[j]? :=
  (clearCacheF_getElem g.length g i hWF hi (by omega) j).2 hr

theorem clear_cache_skel (g : Graph V) (i : Nat) :
    skeleton (clear_cache g i) = skeleton g :=
  clearCacheF_skel g.length g i

/-! ### Evaluation with memoization: skeleton preservation -/

theorem computeF_succ (ops : Ops V) (fuel : Nat) (g : Graph V) (i : Nat) :
    computeF ops (fuel + 1) g i =
      match g[i]? with
      | none => none
      | some n =>
        match n.get_cached_value with
        | some v => some (v, g)
        | none =>
          match n with
          | .Input x _ => some (x, saveToCache g i x)
          | .Add a b _ _ =>
            match computeF ops fuel g a with
            | none => none
            | some (va, g1) =>
              match computeF ops fuel g1 b with
              | none => none
              | some (vb, g2) => some (ops.add va vb, saveToCache g2 i (ops.add va vb))
          | .Mul a b _ _ =>
            match computeF ops fuel g a with
            | none => none
            | some (va, g1) =>
              match computeF ops fuel g1 b with
              | none => none
              | some (vb, g2) => some (ops.mul va vb, saveToCache g2 i (ops.mul va vb))
          | .Sin x _ _ =>
            match computeF ops fuel g x with
            | none => none
            | some (vx, g1) => some (ops.sin vx, saveToCache g1 i (ops.sin vx))
          | .Pow a b _ _ =>
            match computeF ops fuel g a with
            | none => none
            | some (va, g1) =>
              match computeF ops fuel g1 b with
              | none => none
              | some (vb, g2) => some (ops.pow va vb, saveToCache g2 i (ops.pow va vb)) := rfl

theorem computeF_skel {ops : Ops V} : ∀ (fuel : Nat) (g : Graph V) (i : Nat) (v : V)
    (g' : Graph V), computeF ops fuel g i = some (v, g') → skeleton g' = skeleton g := by
  intro fuel
  induction fuel with
  | zero =>
    intro g i v g' h
    simp [computeF] at h
  | succ f ih =>
    intro g i v g' h
    rw [computeF_succ] at h
    cases hm : g[i]? with
    | none => rw [hm] at h; simp at h
    | some n =>
      rw [hm] at h
      cases n with
      | Input x d =>
        simp only [Node.get_cached_value, Option.some.injEq, Prod.mk.injEq] at h
        rw [← h.2]
      | Add a b c d =>
        cases c with
        | some w =>
          simp only [Node.get_cached_value, Option.some.injEq, Prod.mk.injEq] at h
          rw [← h.2]
        | none =>
          simp only [Node.get_cached_value] at h
          cases hA : computeF ops f g a with
          | none => rw [hA] at h; simp at h
          | some p =>
            obtain ⟨va, g1⟩ := p
            rw [hA] at h
            dsimp only at h
            cases hB : computeF ops f g1 b with
            | none => rw [hB] at h; simp at h
            | some q =>
              obtain ⟨vb, g2⟩ := q
              rw [hB] at h
              simp only [Option.some.injEq, Prod.mk.injEq] at h
              rw [← h.2, skeleton_saveToCache, ih g1 b vb g2 hB, ih g a va g1 hA]
      | Mul a b c d =>
        cases c with
        | some w =>
          simp only [Node.get_cached_value, Option.some.injEq, Prod.mk.injEq] at h
          rw [← h.2]
        | none =>
          simp only [Node.get_cached_value] at h
          cases hA : computeF ops f g a with
          | none => rw [hA] at h; simp at h
          | some p =>
            obtain ⟨va, g1⟩ := p
            rw [hA] at h
            dsimp only at h
            cases hB : computeF ops f g1 b with
            | none => rw [hB] at h; simp at h
            | some q =>
              obtain ⟨vb, g2⟩ := q
              rw [hB] at h
              simp only [Option.some.injEq, Prod.mk.injEq] at h
              rw [← h.2, skeleton_saveToCache, ih g1 b vb g2 hB, ih g a va g1 hA]
      | Sin x c d =>
        cases c with
        | some w =>
          simp only [Node.get_cached_value, Option.some.injEq, Prod.mk.injEq] at h
          rw [← h.2]
        | none =>
          simp only [Node.get_cached_value] at h
          cases hA : computeF ops f g x with
          | none => rw [hA] at h; simp at h
          | some p =>
            obtain ⟨vx, g1⟩ := p
            rw [hA] at h
            dsimp only at h
            simp only [Option.some.injEq, Prod.mk.injEq] at h
            rw [← h.2, skeleton_saveToCache, ih g x vx g1 hA]
      | Pow a b c d =>
        cases c with
        | some w =>
          simp only [Node.get_cached_value, Option.some.injEq, Prod.mk.injEq] at h
          rw [← h.2]
        | none =>
          simp only [Node.get_cached_value] at h
          cases hA : computeF ops f g a with
          | none => rw [hA] at h; simp at h
          | some p =>
            obtain ⟨va, g1⟩ := p
            rw [hA] at h
            dsimp only at h
            cases hB : computeF ops f g1 b with
            | none => rw [hB] at h; simp at h
            | some q =>
              obtain ⟨vb, g2⟩ := q
              rw [hB] at h
              simp only [Option.some.injEq, Prod.mk.injEq] at h
              rw [← h.2, skeleton_saveToCache, ih g1 b vb g2 hB, ih g a va g1 hA]

/-! ### Branch lemmas for `compute` -/

theorem computeF_hit {ops : Ops V} {fuel : Nat} {g : Graph V} {i : Nat} {n : Node V} {v : V}
    (hm : g[i]? = some n) (hc : n.get_cached_value = some v) :
    computeF ops (fuel + 1) g i = some (v, g) := by
  rw [computeF_succ, hm]
  dsimp only
  rw [hc]

theorem computeF_add_miss {ops : Ops V} {fuel : Nat} {g : Graph V} {i a b : Nat}
    {d : List Nat} (hm : g[i]? = some (.Add a b none d)) :
    computeF ops (fuel + 1) g i =
      match computeF ops fuel g a with
      | none => none
      | some (va, g1) =>
        match computeF ops fuel g1 b with
        | none => none
        | some (vb, g2) => some (ops.add va vb, saveToCache g2 i (ops.add va vb)) := by
  rw [computeF_succ, hm]
  rfl

theorem computeF_mul_miss {ops : Ops V} {fuel : Nat} {g : Graph V} {i a b : Nat}
    {d : List Nat} (hm : g[i]? = some (.Mul a b none d)) :
    computeF ops (fuel + 1) g i =
      match computeF ops fuel g a with
      | none => none
      | some (va, g1) =>
        match computeF ops fuel g1 b with
        | none => none
        | some (vb, g2) => some (ops.mul va vb, saveToCache g2 i (ops.mul va vb)) := by
  rw [computeF_succ, hm]
  rfl

theorem computeF_sine_miss {ops : Ops V} {fuel : Nat} {g : Graph V} {i x : Nat}
    {d : List Nat} (hm : g[i]? = some (.Sin x none d)) :
    computeF ops (fuel + 1) g i =
      match computeF ops fuel g x with
      | none => none
      | some (vx, g1) => some (ops.sin vx, saveToCache g1 i (ops.sin vx)) := by
  rw [computeF_succ, hm]
  rfl

theorem computeF_pow_miss {ops : Ops V} {fuel : Nat} {g : Graph V} {i a b : Nat}
    {d : List Nat} (hm : g[i]? = some (.Pow a b none d)) :
    computeF ops (fuel + 1) g i =
      match computeF ops fuel g a with
      | none => none
      | some (va, g1) =>
        match computeF ops fuel g1 b with
        | none => none
        | some (vb, g2) => some (ops.pow va vb, saveToCache g2 i (ops.pow va vb)) := by
  rw [computeF_succ, hm]
  rfl

theorem getCachedAt_saveToCache {g : Graph V} {i : Nat} {n : Node V} (v : V)
    (hm : g[i]? = some n) (hni : n.isInput = false) :
    getCachedAt (saveToCache g i v) i = some v := by
  unfold getCachedAt
  rw [getElem?_saveToCache_self, hm]
  simp only [Option.map_some']
  exact Node.cached_save n v hni

theorem Node.isInput_shape_add {n : Node V} {a b : Nat} (h : n.shape = .add a b) :
    n.isInput = false := by
  obtain ⟨c, d, rfl⟩ := Node.shape_add_inv h
  rfl

theorem Node.isInput_shape_mul {n : Node V} {a b : Nat} (h : n.shape = .mul a b) :
    n.isInput = false := by
  obtain ⟨c, d, rfl⟩ := Node.shape_mul_inv h
  rfl

theorem Node.isInput_shape_sine {n : Node V} {x : Nat} (h : n.shape = .sine x) :
    n.isInput = false := by
  obtain ⟨c, d, rfl⟩ := Node.shape_sine_inv h
  rfl

theorem Node.isInput_shape_pow {n : Node V} {a b : Nat} (h : n.shape = .pow a b) :
    n.isInput = false := by
  obtain ⟨c, d, rfl⟩ := Node.shape_pow_inv h
  rfl

/-- Master lemma for `compute`: on a well-formed graph with sufficient
fuel, evaluation succeeds, preserves the skeleton, leaves the computed
value in the node's cache slot, and — when the starting caches are
coherent — returns exactly the pure value and preserves coherence. -/
theorem computeF_spec {ops : Ops V} : ∀ (fuel : Nat) (g : Graph V) (i : Nat), WF g →
    i < g.length → i < fuel →
    ∃ v g', computeF ops fuel g i = some (v, g') ∧ skeleton g' = skeleton g ∧
      getCachedAt g' i = some v ∧
      (Coherent ops g → denote ops g i = some v ∧ Coherent ops g') := by
  intro fuel
  induction fuel with
  | zero => intro g i _ _ h; omega
  | succ f ih =>
    intro g i hWF hi hfuel
    obtain ⟨n, hm⟩ : ∃ n, g[i]? = some n := ⟨g[i], List.getElem?_eq_getElem hi⟩
    cases hc : n.get_cached_value with
    | some w =>
      refine ⟨w, g, computeF_hit hm hc, rfl, ?_, ?_⟩
      · unfold getCachedAt; rw [hm]; exact hc
      · intro hcoh
        refine ⟨hcoh i hi w ?_, hcoh⟩
        unfold getCachedAt; rw [hm]; exact hc
    | none =>
      cases n with
      | Input x d => simp [Node.get_cached_value] at hc
      | Add a b c d =>
        have hcn : c = none := hc
        subst hcn
        have hab : a < i ∧ b < i := by
          have h1 := (hWF i hi).1
          have hops : operandsAt g i = [a, b] := by unfold operandsAt; rw [hm]; rfl
          rw [hops] at h1
          exact ⟨h1 a (by simp), h1 b (by simp)⟩
        obtain ⟨va, g1, hA, hskel1, _, hcoh1⟩ := ih g a hWF (by omega) (by omega)
        have hlen1 : g1.length = g.length := length_eq_of_skel hskel1
        obtain ⟨vb, g2, hB, hskel2, _, hcoh2⟩ :=
          ih g1 b (WF_of_skel hskel1.symm hWF) (by omega) (by omega)
        have hskel2' : skeleton g2 = skeleton g := hskel2.trans hskel1
        have hsh2 : (g2[i]?).map Node.shape = some (Shape.add a b) := by
          rw [shape_eq_of_skel hskel2' i, hm]; rfl
        obtain ⟨n2, hm2, hs2⟩ := getElem?_shape_some hsh2
        have hcs : getCachedAt (saveToCache g2 i (ops.add va vb)) i = some (ops.add va vb) :=
          getCachedAt_saveToCache (ops.add va vb) hm2 (Node.isInput_shape_add hs2)
        refine ⟨ops.add va vb, saveToCache g2 i (ops.add va vb), ?_, ?_, hcs, ?_⟩
        · rw [computeF_add_miss hm, hA]
          dsimp only
          rw [hB]
        · rw [skeleton_saveToCache]; exact hskel2'
        · intro hcoh
          obtain ⟨hda, hcoh1'⟩ := hcoh1 hcoh
          obtain ⟨hdb, hcoh2'⟩ := hcoh2 hcoh1'
          have hdb' : denote ops g b = some vb := (denote_of_skel hskel1 b).trans hdb
          have hdi : denote ops g i = some (ops.add va vb) := by
            rw [denote_add hm hab.1 hab.2, hda, hdb']
          refine ⟨hdi, ?_⟩
          intro j hj w hw
          have hsksave : skeleton (saveToCache g2 i (ops.add va vb)) = skeleton g2 :=
            skeleton_saveToCache g2 i (ops.add va vb)
          have hdj : denote ops (saveToCache g2 i (ops.add va vb)) j = denote ops g2 j :=
            denote_of_skel hsksave.symm j
          rcases eq_or_ne j i with rfl | hne
          · rw [hcs] at hw
            injection hw with hw
            rw [hdj, ← denote_of_skel hskel2' j, hdi, hw]
          · have hw2 : getCachedAt g2 j = some w := by
              unfold getCachedAt at hw ⊢
              rw [getElem?_saveToCache_ne g2 (ops.add va vb) (Ne.symm hne)] at hw
              exact hw
            rw [length_saveToCache] at hj
            rw [hdj]
            exact hcoh2' j hj w hw2
      | Mul a b c d =>
        have hcn : c = none := hc
        subst hcn
        have hab : a < i ∧ b < i := by
          have h1 := (hWF i hi).1
          have hops : operandsAt g i = [a, b] := by unfold operandsAt; rw [hm]; rfl
          rw [hops] at h1
          exact ⟨h1 a (by simp), h1 b (by simp)⟩
        obtain ⟨va, g1, hA, hskel1, _, hcoh1⟩ := ih g a hWF (by omega) (by omega)
        have hlen1 : g1.length = g.length := length_eq_of_skel hskel1
        obtain ⟨vb, g2, hB, hskel2, _, hcoh2⟩ :=
          ih g1 b (WF_of_skel hskel1.symm hWF) (by omega) (by omega)
        have hskel2' : skeleton g2 = skeleton g := hskel2.trans hskel1
        have hsh2 : (g2[i]?).map Node.shape = some (Shape.mul a b) := by
          rw [shape_eq_of_skel hskel2' i, hm]; rfl
        obtain ⟨n2, hm2, hs2⟩ := getElem?_shape_some hsh2
        have hcs : getCachedAt (saveToCache g2 i (ops.mul va vb)) i = some (ops.mul va vb) :=
          getCachedAt_saveToCache (ops.mul va vb) hm2 (Node.isInput_shape_mul hs2)
        refine ⟨ops.mul va vb, saveToCache g2 i (ops.mul va vb), ?_, ?_, hcs, ?_⟩
        · rw [computeF_mul_miss hm, hA]
          dsimp only
          rw [hB]
        · rw [skeleton_saveToCache]; exact hskel2'
        · intro hcoh
          obtain ⟨hda, hcoh1'⟩ := hcoh1 hcoh
          obtain ⟨hdb, hcoh2'⟩ := hcoh2 hcoh1'
          have hdb' : denote ops g b = some vb := (denote_of_skel hskel1 b).trans hdb
          have hdi : denote ops g i = some (ops.mul va vb) := by
            rw [denote_mul hm hab.1 hab.2, hda, hdb']
          refine ⟨hdi, ?_⟩
          intro j hj w hw
          have hsksave : skeleton (saveToCache g2 i (ops.mul va vb)) = skeleton g2 :=
            skeleton_saveToCache g2 i (ops.mul va vb)
          have hdj : denote ops (saveToCache g2 i (ops.mul va vb)) j = denote ops g2 j :=
            denote_of_skel hsksave.symm j
          rcases eq_or_ne j i with rfl | hne
          · rw [hcs] at hw
            injection hw with hw
            rw [hdj, ← denote_of_skel hskel2' j, hdi, hw]
          · have hw2 : getCachedAt g2 j = some w := by
              unfold getCachedAt at hw ⊢
              rw [getElem?_saveToCache_ne g2 (ops.mul va vb) (Ne.symm hne)] at hw
              exact hw
            rw [length_saveToCache] at hj
            rw [hdj]
            exact hcoh2' j hj w hw2
      | Sin x c d =>
        have hcn : c = none := hc
        subst hcn
        have hx : x < i := by
          have h1 := (hWF i hi).1
          have hops : operandsAt g i = [x] := by unfold operandsAt; rw [hm]; rfl
          rw [hops] at h1
          exact h1 x (by simp)
        obtain ⟨vx, g1, hA, hskel1, _, hcoh1⟩ := ih g x hWF (by omega) (by omega)
        have hsh1 : (g1[i]?).map Node.shape = some (Shape.sine x) := by
          rw [shape_eq_of_skel hskel1 i, hm]; rfl
        obtain ⟨n1, hm1, hs1⟩ := getElem?_shape_some hsh1
        have hcs : getCachedAt (saveToCache g1 i (ops.sin vx)) i = some (ops.sin vx) :=
          getCachedAt_saveToCache (ops.sin vx) hm1 (Node.isInput_shape_sine hs1)
        refine ⟨ops.sin vx, saveToCache g1 i (ops.sin vx), ?_, ?_, hcs, ?_⟩
        · rw [computeF_sine_miss hm, hA]
        · rw [skeleton_saveToCache]; exact hskel1
        · intro hcoh
          obtain ⟨hdx, hcoh1'⟩ := hcoh1 hcoh
          have hdi : denote ops g i = some (ops.sin vx) := by
            rw [denote_sine hm hx, hdx]
          refine ⟨hdi, ?_⟩
          intro j hj w hw
          have hsksave : skeleton (saveToCache g1 i (ops.sin vx)) = skeleton g1 :=
            skeleton_saveToCache g1 i (ops.sin vx)
          have hdj : denote ops (saveToCache g1 i (ops.sin vx)) j = denote ops g1 j :=
            denote_of_skel hsksave.symm j
          rcases eq_or_ne j i with rfl | hne
          · rw [hcs] at hw
            injection hw with hw
            rw [hdj, ← denote_of_skel hskel1 j, hdi, hw]
          · have hw1 : getCachedAt g1 j = some w := by
              unfold getCachedAt at hw ⊢
              rw [getElem?_saveToCache_ne g1 (ops.sin vx) (Ne.symm hne)] at hw
              exact hw
            rw [length_saveToCache] at hj
            rw [hdj]
            exact hcoh1' j hj w hw1
      | Pow a b c d =>
        have hcn : c = none := hc
        subst hcn
        have hab : a < i ∧ b < i := by
          have h1 := (hWF i hi).1
          have hops : operandsAt g i = [a, b] := by unfold operandsAt; rw [hm]; rfl
          rw [hops] at h1
          exact ⟨h1 a (by simp), h1 b (by simp)⟩
        obtain ⟨va, g1, hA, hskel1, _, hcoh1⟩ := ih g a hWF (by omega) (by omega)
        have hlen1 : g1.length = g.length := length_eq_of_skel hskel1
        obtain ⟨vb, g2, hB, hskel2, _, hcoh2⟩ :=
          ih g1 b (WF_of_skel hskel1.symm hWF) (by omega) (by omega)
        have hskel2' : skeleton g2 = skeleton g := hskel2.trans hskel1
        have hsh2 : (g2[i]?).map Node.shape = some (Shape.pow a b) := by
          rw [shape_eq_of_skel hskel2' i, hm]; rfl
        obtain ⟨n2, hm2, hs2⟩ := getElem?_shape_some hsh2
        have hcs : getCachedAt (saveToCache g2 i (ops.pow va vb)) i = some (ops.pow va vb) :=
          getCachedAt_saveToCache (ops.pow va vb) hm2 (Node.isInput_shape_pow hs2)
        refine ⟨ops.pow va vb, saveToCache g2 i (ops.pow va vb), ?_, ?_, hcs, ?_⟩
        · rw [computeF_pow_miss hm, hA]
          dsimp only
          rw [hB]
        · rw [skeleton_saveToCache]; exact hskel2'
        · intro hcoh
          obtain ⟨hda, hcoh1'⟩ := hcoh1 hcoh
          obtain ⟨hdb, hcoh2'⟩ := hcoh2 hcoh1'
          have hdb' : denote ops g b = some vb := (denote_of_skel hskel1 b).trans hdb
          have hdi : denote ops g i = some (ops.pow va vb) := by
            rw [denote_pow hm hab.1 hab.2, hda, hdb']
          refine ⟨hdi, ?_⟩
          intro j hj w hw
          have hsksave : skeleton (saveToCache g2 i (ops.pow va vb)) = skeleton g2 :=
            skeleton_saveToCache g2 i (ops.pow va vb)
          have hdj : denote ops (saveToCache g2 i (ops.pow va vb)) j = denote ops g2 j :=
            denote_of_skel hsksave.symm j
          rcases eq_or_ne j i with rfl | hne
          · rw [hcs] at hw
            injection hw with hw
            rw [hdj, ← denote_of_skel hskel2' j, hdi, hw]
          · have hw2 : getCachedAt g2 j = some w := by
              unfold getCachedAt at hw ⊢
              rw [getElem?_saveToCache_ne g2 (ops.pow va vb) (Ne.symm hne)] at hw
              exact hw
            rw [length_saveToCache] at hj
            rw [hdj]
            exact hcoh2' j hj w hw2

/-- On well-formed graphs `computeF` is fuel-independent once the fuel
exceeds the node index, so the embedding's canonical fuel loses nothing. -/
theorem computeF_fuel {ops : Ops V} : ∀ (fuel fuel' : Nat) (g : Graph V) (i : Nat), WF g →
    i < g.length → i < fuel → i < fuel' →
    computeF ops fuel g i = computeF ops fuel' g i := by
  intro fuel
  induction fuel with
  | zero => intro fuel' g i _ _ h _; omega
  | succ f ih =>
    intro fuel' g i hWF hi hf hf'
    cases fuel' with
    | zero => omega
    | succ f' =>
      obtain ⟨n, hm⟩ : ∃ n, g[i]? = some n := ⟨g[i], List.getElem?_eq_getElem hi⟩
      cases hc : n.get_cached_value with
      | some w => rw [computeF_hit hm hc, computeF_hit hm hc]
      | none =>
        cases n with
        | Input x d => simp [Node.get_cached_value] at hc
        | Add a b c d =>
          have hcn : c = none := hc
          subst hcn
          have hab : a < i ∧ b < i := by
            have h1 := (hWF i hi).1
            have hops : operandsAt g i = [a, b] := by unfold operandsAt; rw [hm]; rfl
            rw [hops] at h1
            exact ⟨h1 a (by simp), h1 b (by simp)⟩
          rw [computeF_add_miss hm, computeF_add_miss hm,
            ih f' g a hWF (by omega) (by omega) (by omega)]
          cases hA : computeF ops f' g a with
          | none => rfl
          | some p =>
            obtain ⟨va, g1⟩ := p
            have hskel1 := computeF_skel f' g a va g1 hA
            dsimp only
            rw [ih f' g1 b (WF_of_skel hskel1.symm hWF)
              (by rw [length_eq_of_skel hskel1]; omega) (by omega) (by omega)]
        | Mul a b c d =>
          have hcn : c = none := hc
          subst hcn
          have hab : a < i ∧ b < i := by
            have h1 := (hWF i hi).1
            have hops : operandsAt g i = [a, b] := by unfold operandsAt; rw [hm]; rfl
            rw [hops] at h1
            exact ⟨h1 a (by simp), h1 b (by simp)⟩
          rw [computeF_mul_miss hm, computeF_mul_miss hm,
            ih f' g a hWF (by omega) (by omega) (by omega)]
          cases hA : computeF ops f' g a with
          | none => rfl
          | some p =>
            obtain ⟨va, g1⟩ := p
            have hskel1 := computeF_skel f' g a va g1 hA
            dsimp only
            rw [ih f' g1 b (WF_of_skel hskel1.symm hWF)
              (by rw [length_eq_of_skel hskel1]; omega) (by omega) (by omega)]
        | Sin x c d =>
          have hcn : c = none := hc
          subst hcn
          have hx : x < i := by
            have h1 := (hWF i hi).1
            have hops : operandsAt g i = [x] := by unfold operandsAt; rw [hm]; rfl
            rw [hops] at h1
            exact h1 x (by simp)
          rw [computeF_sine_miss hm, computeF_sine_miss hm,
            ih f' g x hWF (by omega) (by omega) (by omega)]
        | Pow a b c d =>
          have hcn : c = none := hc
          subst hcn
          have hab : a < i ∧ b < i := by
            have h1 := (hWF i hi).1
            have hops : operandsAt g i = [a, b] := by unfold operandsAt; rw [hm]; rfl
            rw [hops] at h1
            exact ⟨h1 a (by simp), h1 b (by simp)⟩
          rw [computeF_pow_miss hm, computeF_pow_miss hm,
            ih f' g a hWF (by omega) (by omega) (by omega)]
          cases hA : computeF ops f' g a with
          | none => rfl
          | some p =>
            obtain ⟨va, g1⟩ := p
            have hskel1 := computeF_skel f' g a va g1 hA
            dsimp only
            rw [ih f' g1 b (WF_of_skel hskel1.symm hWF)
              (by rw [length_eq_of_skel hskel1]; omega) (by omega) (by omega)]

/-- After any successful `computeF`, the computed node's cache slot holds
the returned value (for an `Input`, its value is the "cache").  This is
unconditional: it needs no well-formedness. -/
theorem computeF_caches {ops : Ops V} : ∀ (fuel : Nat) (g : Graph V) (i : Nat) (v : V)
    (g' : Graph V), computeF ops fuel g i = some (v, g') → getCachedAt g' i = some v := by
  intro fuel g i v g' h
  cases fuel with
  | zero => simp [computeF] at h
  | succ f =>
    rw [computeF_succ] at h
    cases hm : g[i]? with
    | none => rw [hm] at h; simp at h
    | some n =>
      rw [hm] at h
      cases n with
      | Input x d =>
        simp only [Node.get_cached_value, Option.some.injEq, Prod.mk.injEq] at h
        rw [← h.2, ← h.1]
        unfold getCachedAt
        rw [hm]
        rfl
      | Add a b c d =>
        cases c with
        | some w =>
          simp only [Node.get_cached_value, Option.some.injEq, Prod.mk.injEq] at h
          rw [← h.2, ← h.1]
          unfold getCachedAt
          rw [hm]
          rfl
        | none =>
          simp only [Node.get_cached_value] at h
          cases hA : computeF ops f g a with
          | none => rw [hA] at h; simp at h
          | some p =>
            obtain ⟨va, g1⟩ := p
            rw [hA] at h
            dsimp only at h
            cases hB : computeF ops f g1 b with
            | none => rw [hB] at h; simp at h
            | some q =>
              obtain ⟨vb, g2⟩ := q
              rw [hB] at h
              simp only [Option.some.injEq, Prod.mk.injEq] at h
              have hskel2 : skeleton g2 = skeleton g :=
                (computeF_skel f g1 b vb g2 hB).trans (computeF_skel f g a va g1 hA)
              have hsh2 : (g2[i]?).map Node.shape = some (Shape.add a b) := by
                rw [shape_eq_of_skel hskel2 i, hm]; rfl
              obtain ⟨n2, hm2, hs2⟩ := getElem?_shape_some hsh2
              rw [← h.2, ← h.1]
              exact getCachedAt_saveToCache _ hm2 (Node.isInput_shape_add hs2)
      | Mul a b c d =>
        cases c with
        | some w =>
          simp only [Node.get_cached_value, Option.some.injEq, Prod.mk.injEq] at h
          rw [← h.2, ← h.1]
          unfold getCachedAt
          rw [hm]
          rfl
        | none =>
          simp only [Node.get_cached_value] at h
          cases hA : computeF ops f g a with
          | none => rw [hA] at h; simp at h
          | some p =>
            obtain ⟨va, g1⟩ := p
            rw [hA] at h
            dsimp only at h
            cases hB : computeF ops f g1 b with
            | none => rw [hB] at h; simp at h
            | some q =>
              obtain ⟨vb, g2⟩ := q
              rw [hB] at h
              simp only [Option.some.injEq, Prod.mk.injEq] at h
              have hskel2 : skeleton g2 = skeleton g :=
                (computeF_skel f g1 b vb g2 hB).trans (computeF_skel f g a va g1 hA)
              have hsh2 : (g2[i]?).map Node.shape = some (Shape.mul a b) := by
                rw [shape_eq_of_skel hskel2 i, hm]; rfl
              obtain ⟨n2, hm2, hs2⟩ := getElem?_shape_some hsh2
              rw [← h.2, ← h.1]
              exact getCachedAt_saveToCache _ hm2 (Node.isInput_shape_mul hs2)
      | Sin x c d =>
        cases c with
        | some w =>
          simp only [Node.get_cached_value, Option.some.injEq, Prod.mk.injEq] at h
          rw [← h.2, ← h.1]
          unfold getCachedAt
          rw [hm]
          rfl
        | none =>
          simp only [Node.get_cached_value] at h
          cases hA : computeF ops f g x with
          | none => rw [hA] at h; simp at h
          | some p =>
            obtain ⟨vx, g1⟩ := p
            rw [hA] at h
            dsimp only at h
            simp only [Option.some.injEq, Prod.mk.injEq] at h
            have hskel1 : skeleton g1 = skeleton g := computeF_skel f g x vx g1 hA
            have hsh1 : (g1[i]?).map Node.shape = some (Shape.sine x) := by
              rw [shape_eq_of_skel hskel1 i, hm]; rfl
            obtain ⟨n1, hm1, hs1⟩ := getElem?_shape_some hsh1
            rw [← h.2, ← h.1]
            exact getCachedAt_saveToCache _ hm1 (Node.isInput_shape_sine hs1)
      | Pow a b c d =>
        cases c with
        | some w =>
          simp only [Node.get_cached_value, Option.some.injEq, Prod.mk.injEq] at h
          rw [← h.2, ← h.1]
          unfold getCachedAt
          rw [hm]
          rfl
        | none =>
          simp only [Node.get_cached_value] at h
          cases hA : computeF ops f g a with
          | none => rw [hA] at h; simp at h
          | some p =>
            obtain ⟨va, g1⟩ := p
            rw [hA] at h
            dsimp only at h
            cases hB : computeF ops f g1 b with
            | none => rw [hB] at h; simp at h
            | some q =>
              obtain ⟨vb, g2⟩ := q
              rw [hB] at h
              simp only [Option.some.injEq, Prod.mk.injEq] at h
              have hskel2 : skeleton g2 = skeleton g :=
                (computeF_skel f g1 b vb g2 hB).trans (computeF_skel f g a va g1 hA)
              have hsh2 : (g2[i]?).map Node.shape = some (Shape.pow a b) := by
                rw [shape_eq_of_skel hskel2 i, hm]; rfl
              obtain ⟨n2, hm2, hs2⟩ := getElem?_shape_some hsh2
              rw [← h.2, ← h.1]
              exact getCachedAt_saveToCache _ hm2 (Node.isInput_shape_pow hs2)

/-! ### Mutation (`set`) lemmas -/

theorem set_input {g : Graph V} {i : Nat} {x v : V} {deps : List Nat}
    (hm : g[i]? = some (.Input x deps)) :
    set g i v = some (clear_cache (g.set i (.Input v deps)) i) := by
  unfold set
  rw [hm]

theorem set_inversion {g g' : Graph V} {i : Nat} {v : V} (h : set g i v = some g') :
    ∃ x deps, g[i]? = some (.Input x deps) ∧
      g' = clear_cache (g.set i (.Input v deps)) i := by
  unfold set at h
  cases hm : g[i]? with
  | none => rw [hm] at h; simp at h
  | some n =>
    rw [hm] at h
    cases n with
    | Input x deps =>
      refine ⟨x, deps, rfl, ?_⟩
      dsimp only at h
      injection h with h
      exact h.symm
    | Add a b c d => simp at h
    | Mul a b c d => simp at h
    | Sin x c d => simp at h
    | Pow a b c d => simp at h

theorem set_panics {g : Graph V} {i : Nat} {v : V} {n : Node V}
    (hm : g[i]? = some n) (hni : n.isInput = false) : set g i v = none := by
  unfold set
  rw [hm]
  cases n with
  | Input x deps => simp [Node.isInput] at hni
  | Add a b c d => rfl
  | Mul a b c d => rfl
  | Sin x c d => rfl
  | Pow a b c d => rfl

theorem gset_facts {g : Graph V} {i : Nat} {x : V} (v : V) {deps : List Nat}
    (hm : g[i]? = some (.Input x deps)) :
    (g.set i (.Input v deps)).length = g.length ∧
    (∀ k, getDeps (g.set i (.Input v deps)) k = getDeps g k) ∧
    (∀ k, operandsAt (g.set i (.Input v deps)) k = operandsAt g k) ∧
    (∀ k, k ≠ i → (g.set i (.Input v deps))[k]? = g[k]?) ∧
    (g.set i (.Input v deps))[i]? = some (.Input v deps) := by
  have hi : i < g.length := (List.getElem?_eq_some.mp hm).1
  have hsetk : ∀ k, k ≠ i → (g.set i (.Input v deps))[k]? = g[k]? :=
    fun k hk => List.getElem?_set_ne (Ne.symm hk)
  have hseti : (g.set i (.Input v deps))[i]? = some (.Input v deps) :=
    List.getElem?_set_self hi
  refine ⟨List.length_set g _ _, ?_, ?_, hsetk, hseti⟩
  · intro k
    rcases eq_or_ne k i with rfl | hk
    · unfold getDeps
      rw [hseti, hm]
      rfl
    · unfold getDeps
      rw [hsetk k hk]
  · intro k
    rcases eq_or_ne k i with rfl | hk
    · unfold operandsAt
      rw [hseti, hm]
      rfl
    · unfold operandsAt
      rw [hsetk k hk]

/-- Pointwise effect of `set` on a well-formed graph: the target `Input`
holds the new value, every node reachable along dependent edges has its
cache slot emptied (and nothing else about it changed), every other node
is untouched, and the wiring (dependents and operands) is unchanged
everywhere. -/
theorem set_char {g g' : Graph V} {i : Nat} {v : V} (hWF : WF g)
    (hs : set g i v = some g') :
    ∃ x deps, g[i]? = some (.Input x deps) ∧
      g'.length = g.length ∧
      g'[i]? = some (.Input v deps) ∧
      (∀ j, j ≠ i → ¬DepReach g i j → g'[j]? = g[j]?) ∧
      (∀ j, j ≠ i → DepReach g i j → ∃ n, g[j]? = some n ∧ g'[j]? = some n.clear_slot) ∧
      (∀ k, getDeps g' k = getDeps g k) ∧
      (∀ k, operandsAt g' k = operandsAt g k) := by
  obtain ⟨x, deps, hm, rfl⟩ := set_inversion hs
  obtain ⟨hlen, hdeps, hops, hsetk, hseti⟩ := gset_facts v hm
  have hi : i < g.length := (List.getElem?_eq_some.mp hm).1
  have hWFs : WF (g.set i (.Input v deps)) :=
    WF_congr hlen.symm (fun k => (hops k).symm) (fun k => (hdeps k).symm) hWF
  have his : i < (g.set i (.Input v deps)).length := by omega
  have hreach : ∀ j, DepReach g i j ↔ DepReach (g.set i (.Input v deps)) i j :=
    fun j => ⟨depReach_congr (fun k => (hdeps k).symm), depReach_congr hdeps⟩
  have hcskel := clear_cache_skel (g.set i (.Input v deps)) i
  refine ⟨x, deps, hm, ?_, ?_, ?_, ?_, ?_, ?_⟩
  · rw [length_eq_of_skel hcskel, hlen]
  · rw [clear_cache_reach hWFs his ((hreach i).mp (DepReach.refl i)), hseti]
    rfl
  · intro j hj hr
    rw [clear_cache_frame hWFs his (fun hc => hr ((hreach j).mpr hc))]
    exact hsetk j hj
  · intro j hj hr
    have hjlen : j < g.length := depReach_lt_length hWF hi hr
    obtain ⟨n, hn⟩ : ∃ n, g[j]? = some n := ⟨g[j], List.getElem?_eq_getElem hjlen⟩
    refine ⟨n, hn, ?_⟩
    rw [clear_cache_reach hWFs his ((hreach j).mp hr), hsetk j hj, hn]
    rfl
  · intro k
    rw [getDeps_eq_of_skel hcskel k]
    exact hdeps k
  · intro k
    rw [operandsAt_eq_of_shape (shape_eq_of_skel hcskel k)]
    exact hops k

/-- Mutation preserves cache coherence (given completeness of the
dependents lists): every cache that survives invalidation cannot depend
on the mutated input, so its pure value is unchanged. -/
theorem set_coherent {ops : Ops V} {g g' : Graph V} {i : Nat} {v : V} (hWF : WF g)
    (hDC : DepsComplete g) (hcoh : Coherent ops g) (hs : set g i v = some g') :
    Coherent ops g' := by
  obtain ⟨x, deps, hm, hlen, hat_i, hframe, hclear, hdeps, hops⟩ := set_char hWF hs
  intro j hj w hw
  rcases eq_or_ne j i with rfl | hne
  · unfold getCachedAt at hw
    rw [hat_i] at hw
    rw [denote_input hat_i]
    exact hw
  · by_cases hr : DepReach g i j
    · obtain ⟨n, hgj, hgj'⟩ := hclear j hne hr
      unfold getCachedAt at hw
      rw [hgj'] at hw
      cases n with
      | Input y d2 =>
        rw [denote_input (show g'[j]? = some (.Input y d2) from hgj')]
        exact hw
      | Add a b c d => simp [Node.clear_slot, Node.get_cached_value] at hw
      | Mul a b c d => simp [Node.clear_slot, Node.get_cached_value] at hw
      | Sin xx c d => simp [Node.clear_slot, Node.get_cached_value] at hw
      | Pow a b c d => simp [Node.clear_slot, Node.get_cached_value] at hw
    · have hgj' : g'[j]? = g[j]? := hframe j hne hr
      have hw0 : getCachedAt g j = some w := by
        unfold getCachedAt at hw ⊢
        rw [hgj'] at hw
        exact hw
      have hj0 : j < g.length := by rw [hlen] at hj; exact hj
      have hdg : denote ops g j = some w := hcoh j hj0 w hw0
      have hcongr : denote ops g' j = denote ops g j := by
        apply denote_congr
        intro k hk
        rcases eq_or_ne k i with rfl | hki
        · exact absurd (consumes_to_depReach hDC hk) hr
        · by_cases hrk : DepReach g i k
          · obtain ⟨nk, hk1, hk2⟩ := hclear k hki hrk
            rw [hk1, hk2]
            simp [Node.shape_clear]
          · rw [hframe k hki hrk]
      rw [hcongr]
      exact hdg

/-- Mutation preserves the whole state invariant. -/
theorem set_inv {ops : Ops V} {g g' : Graph V} {i : Nat} {v : V}
    (h : Inv ops g) (hs : set g i v = some g') : Inv ops g' := by
  obtain ⟨hWF, hDC, hDS, hcoh⟩ := h
  obtain ⟨x, deps, hm, hlen, hat_i, hframe, hclear, hdeps, hops⟩ := set_char hWF hs
  exact ⟨WF_congr hlen.symm (fun k => (hops k).symm) (fun k => (hdeps k).symm) hWF,
    DC_congr hlen.symm (fun k => (hops k).symm) (fun k => (hdeps k).symm) hDC,
    DS_congr (fun k => (hops k).symm) (fun k => (hdeps k).symm) hDS,
    set_coherent hWF hDC hcoh hs⟩

/-! ### Construction lemmas -/

theorem consumes_le {g : Graph V} {n k : Nat} (h : Consumes g n k) : k ≤ n := by
  induction h with
  | refl => exact le_refl _
  | step _ hlt _ ih => omega

/-- Pure evaluation only looks at indices at or below the evaluated
node, so it is stable under any extension that keeps the shapes below. -/
theorem denote_ext {ops : Ops V} {g gext : Graph V}
    (hext : ∀ k, k < g.length → (gext[k]?).map Node.shape = (g[k]?).map Node.shape)
    {j : Nat} (hj : j < g.length) : denote ops gext j = denote ops g j :=
  denote_congr j (fun k hk => hext k (lt_of_le_of_lt (consumes_le hk) hj))

/-- Shared wiring analysis for the three binary constructors: append the
fresh node, then push its index onto both operands' dependents. -/
theorem createBin_facts {g : Graph V} {a b : Nat} (nd : Node V)
    (ha : a < g.length) (hb : b < g.length) (hdeps0 : nd.get_dependents = []) :
    (addDependentAt (addDependentAt (g ++ [nd]) a g.length) b g.length).length
        = g.length + 1 ∧
    (addDependentAt (addDependentAt (g ++ [nd]) a g.length) b g.length)[g.length]?
        = some nd ∧
    (∀ k, k ≠ a → k ≠ b → k ≠ g.length →
      (addDependentAt (addDependentAt (g ++ [nd]) a g.length) b g.length)[k]? = g[k]?) ∧
    (∀ k, k < g.length →
      ((addDependentAt (addDependentAt (g ++ [nd]) a g.length) b g.length)[k]?).map
          Node.shape = (g[k]?).map Node.shape) ∧
    (∀ k, k < g.length →
      getCachedAt (addDependentAt (addDependentAt (g ++ [nd]) a g.length) b g.length) k
        = getCachedAt g k) ∧
    (∀ k, k ≠ g.length →
      operandsAt (addDependentAt (addDependentAt (g ++ [nd]) a g.length) b g.length) k
        = operandsAt g k) ∧
    operandsAt (addDependentAt (addDependentAt (g ++ [nd]) a g.length) b g.length)
        g.length = nd.operands ∧
    (∀ k, k ≠ a → k ≠ b →
      getDeps (addDependentAt (addDependentAt (g ++ [nd]) a g.length) b g.length) k
        = getDeps g k) ∧
    g.length ∈ getDeps (addDependentAt (addDependentAt (g ++ [nd]) a g.length) b
        g.length) a ∧
    g.length ∈ getDeps (addDependentAt (addDependentAt (g ++ [nd]) a g.length) b
        g.length) b ∧
    (a ≠ b →
      getDeps (addDependentAt (addDependentAt (g ++ [nd]) a g.length) b g.length) a
          = getDeps g a ++ [g.length] ∧
      getDeps (addDependentAt (addDependentAt (g ++ [nd]) a g.length) b g.length) b
          = getDeps g b ++ [g.length]) ∧
    (a = b →
      getDeps (addDependentAt (addDependentAt (g ++ [nd]) a g.length) b g.length) a
          = getDeps g a ++ [g.length, g.length]) := by
  have hane : a ≠ g.length := by omega
  have hbne : b ≠ g.length := by omega
  have hg1 : ∀ k, k < g.length → (g ++ [nd])[k]? = g[k]? :=
    fun k hk => List.getElem?_append_left hk
  have hg1i : (g ++ [nd])[g.length]? = some nd := by simp
  have hC : ∀ k, k ≠ a → k ≠ b → k ≠ g.length →
      (addDependentAt (addDependentAt (g ++ [nd]) a g.length) b g.length)[k]? = g[k]? := by
    intro k hka hkb hkl
    rw [getElem?_addDependentAt_ne _ _ (Ne.symm hkb),
      getElem?_addDependentAt_ne _ _ (Ne.symm hka)]
    rcases Nat.lt_or_ge k g.length with hlt | hge
    · exact hg1 k hlt
    · have hgt : g.length < k := by omega
      rw [List.getElem?_eq_none (by simp; omega), List.getElem?_eq_none (by omega)]
  have hB : (addDependentAt (addDependentAt (g ++ [nd]) a g.length) b g.length)[g.length]?
      = some nd := by
    rw [getElem?_addDependentAt_ne _ _ hbne, getElem?_addDependentAt_ne _ _ hane, hg1i]
  obtain ⟨na, hna⟩ : ∃ na, g[a]? = some na := ⟨g[a], List.getElem?_eq_getElem ha⟩
  obtain ⟨nb, hnb⟩ : ∃ nb, g[b]? = some nb := ⟨g[b], List.getElem?_eq_getElem hb⟩
  have hlen : (addDependentAt (addDependentAt (g ++ [nd]) a g.length) b g.length).length
      = g.length + 1 := by
    rw [length_addDependentAt, length_addDependentAt]
    simp
  -- entry at `a` and `b`, by cases on whether they coincide
  have hentry : (a ≠ b →
      (addDependentAt (addDependentAt (g ++ [nd]) a g.length) b g.length)[a]?
        = some (na.add_dependent g.length) ∧
      (addDependentAt (addDependentAt (g ++ [nd]) a g.length) b g.length)[b]?
        = some (nb.add_dependent g.length)) ∧
      (a = b →
      (addDependentAt (addDependentAt (g ++ [nd]) a g.length) b g.length)[a]?
        = some ((na.add_dependent g.length).add_dependent g.length)) := by
    constructor
    · intro hab
      constructor
      · rw [getElem?_addDependentAt_ne _ _ (Ne.symm hab), getElem?_addDependentAt_self,
          hg1 a ha, hna]
        rfl
      · rw [getElem?_addDependentAt_self, getElem?_addDependentAt_ne _ _ hab,
          hg1 b hb, hnb]
        rfl
    · intro hab
      subst hab
      rw [getElem?_addDependentAt_self, getElem?_addDependentAt_self, hg1 a ha, hna]
      rfl
  have hD : ∀ k, k < g.length →
      ((addDependentAt (addDependentAt (g ++ [nd]) a g.length) b g.length)[k]?).map
        Node.shape = (g[k]?).map Node.shape := by
    intro k hk
    rcases eq_or_ne a b with rfl | hab
    · rcases eq_or_ne k a with rfl | hka
      · rw [hentry.2 rfl, hna]
        simp [Node.shape_addDep]
      · rw [hC k hka hka (by omega)]
    · rcases eq_or_ne k a with rfl | hka
      · rw [(hentry.1 hab).1, hna]
        simp [Node.shape_addDep]
      · rcases eq_or_ne k b with rfl | hkb
        · rw [(hentry.1 hab).2, hnb]
          simp [Node.shape_addDep]
        · rw [hC k hka hkb (by omega)]
  have hE : ∀ k, k < g.length →
      getCachedAt (addDependentAt (addDependentAt (g ++ [nd]) a g.length) b g.length) k
        = getCachedAt g k := by
    intro k hk
    unfold getCachedAt
    rcases eq_or_ne a b with rfl | hab
    · rcases eq_or_ne k a with rfl | hka
      · rw [hentry.2 rfl, hna]
        simp [Node.cached_addDep]
      · rw [hC k hka hka (by omega)]
    · rcases eq_or_ne k a with rfl | hka
      · rw [(hentry.1 hab).1, hna]
        simp [Node.cached_addDep]
      · rcases eq_or_ne k b with rfl | hkb
        · rw [(hentry.1 hab).2, hnb]
          simp [Node.cached_addDep]
        · rw [hC k hka hkb (by omega)]
  have hF : ∀ k, k ≠ g.length →
      operandsAt (addDependentAt (addDependentAt (g ++ [nd]) a g.length) b g.length) k
        = operandsAt g k := by
    intro k hk
    unfold operandsAt
    rcases eq_or_ne a b with rfl | hab
    · rcases eq_or_ne k a with rfl | hka
      · rw [hentry.2 rfl, hna]
        simp [Node.operands_shape, Node.shape_addDep]
      · rw [hC k hka hka hk]
    · rcases eq_or_ne k a with rfl | hka
      · rw [(hentry.1 hab).1, hna]
        simp [Node.operands_shape, Node.shape_addDep]
      · rcases eq_or_ne k b with rfl | hkb
        · rw [(hentry.1 hab).2, hnb]
          simp [Node.operands_shape, Node.shape_addDep]
        · rw [hC k hka hkb hk]
  have hG : operandsAt (addDependentAt (addDependentAt (g ++ [nd]) a g.length) b
      g.length) g.length = nd.operands := by
    unfold operandsAt
    rw [hB]
  have hH : ∀ k, k ≠ a → k ≠ b →
      getDeps (addDependentAt (addDependentAt (g ++ [nd]) a g.length) b g.length) k
        = getDeps g k := by
    intro k hka hkb
    unfold getDeps
    rcases eq_or_ne k g.length with rfl | hkl
    · rw [hB, List.getElem?_eq_none (le_refl g.length)]
      dsimp only
      rw [hdeps0]
    · rw [hC k hka hkb hkl]
  have hJ : a ≠ b →
      getDeps (addDependentAt (addDependentAt (g ++ [nd]) a g.length) b g.length) a
        = getDeps g a ++ [g.length] ∧
      getDeps (addDependentAt (addDependentAt (g ++ [nd]) a g.length) b g.length) b
        = getDeps g b ++ [g.length] := by
    intro hab
    unfold getDeps
    rw [(hentry.1 hab).1, (hentry.1 hab).2, hna, hnb]
    exact ⟨Node.deps_addDep na g.length, Node.deps_addDep nb g.length⟩
  have hK : a = b →
      getDeps (addDependentAt (addDependentAt (g ++ [nd]) a g.length) b g.length) a
        = getDeps g a ++ [g.length, g.length] := by
    intro hab
    unfold getDeps
    rw [hentry.2 hab, hna]
    dsimp only
    rw [Node.deps_addDep, Node.deps_addDep]
    simp
  have hIa : g.length ∈ getDeps (addDependentAt (addDependentAt (g ++ [nd]) a g.length)
      b g.length) a := by
    rcases eq_or_ne a b with rfl | hab
    · rw [hK rfl]; simp
    · rw [(hJ hab).1]; simp
  have hIb : g.length ∈ getDeps (addDependentAt (addDependentAt (g ++ [nd]) a g.length)
      b g.length) b := by
    rcases eq_or_ne a b with rfl | hab
    · rw [hK rfl]; simp
    · rw [(hJ hab).2]; simp
  exact ⟨hlen, hB, hC, hD, hE, hF, hG, hH, hIa, hIb, hJ, hK⟩

theorem getDeps_out {g : Graph V} {k : Nat} (h : g.length ≤ k) : getDeps g k = [] := by
  unfold getDeps
  rw [List.getElem?_eq_none h]

/-- Wiring a fresh binary node preserves the state invariant. -/
theorem createBin_inv {ops : Ops V} {g : Graph V} {a b : Nat} {nd : Node V}
    (hinv : Inv ops g) (ha : a < g.length) (hb : b < g.length)
    (hdeps0 : nd.get_dependents = []) (hops0 : nd.operands = [a, b])
    (hcache0 : nd.get_cached_value = none) :
    Inv ops (addDependentAt (addDependentAt (g ++ [nd]) a g.length) b g.length) := by
  obtain ⟨hWF, hDC, hDS, hcoh⟩ := hinv
  obtain ⟨hlen, hB, hC, hD, hE, hF, hG, hH, hIa, hIb, hJ, hK⟩ := createBin_facts nd ha hb hdeps0
  have hsub : ∀ k j, j ∈ getDeps (addDependentAt (addDependentAt (g ++ [nd]) a g.length)
      b g.length) k → j ∈ getDeps g k ∨ (j = g.length ∧ (k = a ∨ k = b)) := by
    intro k j hj
    by_cases hka : k = a
    · subst hka
      rcases eq_or_ne k b with rfl | hkb
      · rw [hK rfl] at hj
        rcases List.mem_append.mp hj with h | h
        · exact Or.inl h
        · simp at h
          exact Or.inr ⟨h, Or.inl rfl⟩
      · rw [(hJ hkb).1] at hj
        rcases List.mem_append.mp hj with h | h
        · exact Or.inl h
        · simp at h
          exact Or.inr ⟨h, Or.inl rfl⟩
    · by_cases hkb : k = b
      · subst hkb
        rw [(hJ (Ne.symm hka)).2] at hj
        rcases List.mem_append.mp hj with h | h
        · exact Or.inl h
        · simp at h
          exact Or.inr ⟨h, Or.inr rfl⟩
      · rw [hH k hka hkb] at hj
        exact Or.inl hj
  have hmono : ∀ k j, j ∈ getDeps g k → j ∈ getDeps (addDependentAt (addDependentAt
      (g ++ [nd]) a g.length) b g.length) k := by
    intro k j hj
    by_cases hka : k = a
    · subst hka
      rcases eq_or_ne k b with rfl | hkb
      · rw [hK rfl]
        exact List.mem_append.mpr (Or.inl hj)
      · rw [(hJ hkb).1]
        exact List.mem_append.mpr (Or.inl hj)
    · by_cases hkb : k = b
      · subst hkb
        rw [(hJ (Ne.symm hka)).2]
        exact List.mem_append.mpr (Or.inl hj)
      · rw [hH k hka hkb]
        exact hj
  refine ⟨?_, ?_, ?_, ?_⟩
  · -- WF
    intro k hk
    rw [hlen] at hk
    constructor
    · intro a' ha'
      rcases eq_or_ne k g.length with rfl | hkl
      · rw [hG, hops0] at ha'
        simp at ha'
        rcases ha' with rfl | rfl
        · exact ha
        · exact hb
      · rw [hF k hkl] at ha'
        exact (hWF k (by omega)).1 a' ha'
    · intro j hj
      rcases hsub k j hj with hjg | ⟨rfl, hkab⟩
      · have hklen : k < g.length := by
          by_contra hc
          push_neg at hc
          rw [getDeps_out hc] at hjg
          simp at hjg
        have := (hWF k hklen).2 j hjg
        rw [hlen]
        omega
      · rw [hlen]
        rcases hkab with rfl | rfl
        · omega
        · omega
  · -- DepsComplete
    intro k hk a' ha'
    rw [hlen] at hk
    rcases eq_or_ne k g.length with rfl | hkl
    · rw [hG, hops0] at ha'
      simp at ha'
      rcases ha' with rfl | rfl
      · exact hIa
      · exact hIb
    · rw [hF k hkl] at ha'
      exact hmono a' k (hDC k (by omega) a' ha')
  · -- DepsSound
    intro a' j hj
    rcases hsub a' j hj with hjg | ⟨rfl, ha'ab⟩
    · have h1 := hDS a' j hjg
      have hjlen : j < g.length := operandsAt_mem_length h1
      rw [hF j (by omega)]
      exact h1
    · rw [hG, hops0]
      rcases ha'ab with rfl | rfl
      · simp
      · simp
  · -- Coherent
    intro j hj w hw
    rw [hlen] at hj
    rcases eq_or_ne j g.length with rfl | hjl
    · unfold getCachedAt at hw
      rw [hB] at hw
      dsimp only at hw
      rw [hcache0] at hw
      simp at hw
    · have hjlen : j < g.length := by omega
      rw [hE j hjlen] at hw
      have := hcoh j hjlen w hw
      rw [denote_ext hD hjlen]
      exact this

/-- Shared wiring analysis for the unary constructor. -/
theorem createUn_facts {g : Graph V} {x : Nat} (nd : Node V)
    (hx : x < g.length) (hdeps0 : nd.get_dependents = []) :
    (addDependentAt (g ++ [nd]) x g.length).length = g.length + 1 ∧
    (addDependentAt (g ++ [nd]) x g.length)[g.length]? = some nd ∧
    (∀ k, k ≠ x → k ≠ g.length → (addDependentAt (g ++ [nd]) x g.length)[k]? = g[k]?) ∧
    (∀ k, k < g.length →
      ((addDependentAt (g ++ [nd]) x g.length)[k]?).map Node.shape
        = (g[k]?).map Node.shape) ∧
    (∀ k, k < g.length →
      getCachedAt (addDependentAt (g ++ [nd]) x g.length) k = getCachedAt g k) ∧
    (∀ k, k ≠ g.length →
      operandsAt (addDependentAt (g ++ [nd]) x g.length) k = operandsAt g k) ∧
    operandsAt (addDependentAt (g ++ [nd]) x g.length) g.length = nd.operands ∧
    (∀ k, k ≠ x → getDeps (addDependentAt (g ++ [nd]) x g.length) k = getDeps g k) ∧
    g.length ∈ getDeps (addDependentAt (g ++ [nd]) x g.length) x ∧
    getDeps (addDependentAt (g ++ [nd]) x g.length) x = getDeps g x ++ [g.length] := by
  have hxne : x ≠ g.length := by omega
  have hg1 : ∀ k, k < g.length → (g ++ [nd])[k]? = g[k]? :=
    fun k hk => List.getElem?_append_left hk
  have hg1i : (g ++ [nd])[g.length]? = some nd := by simp
  obtain ⟨nx, hnx⟩ : ∃ nx, g[x]? = some nx := ⟨g[x], List.getElem?_eq_getElem hx⟩
  have hC : ∀ k, k ≠ x → k ≠ g.length →
      (addDependentAt (g ++ [nd]) x g.length)[k]? = g[k]? := by
    intro k hkx hkl
    rw [getElem?_addDependentAt_ne _ _ (Ne.symm hkx)]
    rcases Nat.lt_or_ge k g.length with hlt | hge
    · exact hg1 k hlt
    · rw [List.getElem?_eq_none (by simp; omega), List.getElem?_eq_none (by omega)]
  have hB : (addDependentAt (g ++ [nd]) x g.length)[g.length]? = some nd := by
    rw [getElem?_addDependentAt_ne _ _ hxne, hg1i]
  have hentry : (addDependentAt (g ++ [nd]) x g.length)[x]?
      = some (nx.add_dependent g.length) := by
    rw [getElem?_addDependentAt_self, hg1 x hx, hnx]
    rfl
  have hlen : (addDependentAt (g ++ [nd]) x g.length).length = g.length + 1 := by
    rw [length_addDependentAt]
    simp
  have hD : ∀ k, k < g.length →
      ((addDependentAt (g ++ [nd]) x g.length)[k]?).map Node.shape
        = (g[k]?).map Node.shape := by
    intro k hk
    rcases eq_or_ne k x with rfl | hkx
    · rw [hentry, hnx]
      simp [Node.shape_addDep]
    · rw [hC k hkx (by omega)]
  have hE : ∀ k, k < g.length →
      getCachedAt (addDependentAt (g ++ [nd]) x g.length) k = getCachedAt g k := by
    intro k hk
    unfold getCachedAt
    rcases eq_or_ne k x with rfl | hkx
    · rw [hentry, hnx]
      simp [Node.cached_addDep]
    · rw [hC k hkx (by omega)]
  have hF : ∀ k, k ≠ g.length →
      operandsAt (addDependentAt (g ++ [nd]) x g.length) k = operandsAt g k := by
    intro k hkl
    unfold operandsAt
    rcases eq_or_ne k x with rfl | hkx
    · rw [hentry, hnx]
      simp [Node.operands_shape, Node.shape_addDep]
    · rw [hC k hkx hkl]
  have hG : operandsAt (addDependentAt (g ++ [nd]) x g.length) g.length
      = nd.operands := by
    unfold operandsAt
    rw [hB]
  have hH : ∀ k, k ≠ x →
      getDeps (addDependentAt (g ++ [nd]) x g.length) k = getDeps g k := by
    intro k hkx
    unfold getDeps
    rcases eq_or_ne k g.length with rfl | hkl
    · rw [hB, List.getElem?_eq_none (le_refl g.length)]
      dsimp only
      rw [hdeps0]
    · rw [hC k hkx hkl]
  have hJ : getDeps (addDependentAt (g ++ [nd]) x g.length) x
      = getDeps g x ++ [g.length] := by
    unfold getDeps
    rw [hentry, hnx]
    exact Node.deps_addDep nx g.length
  have hI : g.length ∈ getDeps (addDependentAt (g ++ [nd]) x g.length) x := by
    rw [hJ]
    simp
  exact ⟨hlen, hB, hC, hD, hE, hF, hG, hH, hI, hJ⟩

/-- Wiring a fresh unary node preserves the state invariant. -/
theorem createUn_inv {ops : Ops V} {g : Graph V} {x : Nat} {nd : Node V}
    (hinv : Inv ops g) (hx : x < g.length)
    (hdeps0 : nd.get_dependents = []) (hops0 : nd.operands = [x])
    (hcache0 : nd.get_cached_value = none) :
    Inv ops (addDependentAt (g ++ [nd]) x g.length) := by
  obtain ⟨hWF, hDC, hDS, hcoh⟩ := hinv
  obtain ⟨hlen, hB, hC, hD, hE, hF, hG, hH, hI, hJ⟩ := createUn_facts nd hx hdeps0
  have hsub : ∀ k j, j ∈ getDeps (addDependentAt (g ++ [nd]) x g.length) k →
      j ∈ getDeps g k ∨ (j = g.length ∧ k = x) := by
    intro k j hj
    by_cases hkx : k = x
    · subst hkx
      rw [hJ] at hj
      rcases List.mem_append.mp hj with h | h
      · exact Or.inl h
      · simp at h
        exact Or.inr ⟨h, rfl⟩
    · rw [hH k hkx] at hj
      exact Or.inl hj
  have hmono : ∀ k j, j ∈ getDeps g k →
      j ∈ getDeps (addDependentAt (g ++ [nd]) x g.length) k := by
    intro k j hj
    by_cases hkx : k = x
    · subst hkx
      rw [hJ]
      exact List.mem_append.mpr (Or.inl hj)
    · rw [hH k hkx]
      exact hj
  refine ⟨?_, ?_, ?_, ?_⟩
  · intro k hk
    rw [hlen] at hk
    constructor
    · intro a' ha'
      rcases eq_or_ne k g.length with rfl | hkl
      · rw [hG, hops0] at ha'
        simp at ha'
        subst ha'
        exact hx
      · rw [hF k hkl] at ha'
        exact (hWF k (by omega)).1 a' ha'
    · intro j hj
      rcases hsub k j hj with hjg | ⟨rfl, rfl⟩
      · have hklen : k < g.length := by
          by_contra hc
          push_neg at hc
          rw [getDeps_out hc] at hjg
          simp at hjg
        have := (hWF k hklen).2 j hjg
        rw [hlen]
        omega
      · rw [hlen]
        omega
  · intro k hk a' ha'
    rw [hlen] at hk
    rcases eq_or_ne k g.length with rfl | hkl
    · rw [hG, hops0] at ha'
      simp at ha'
      subst ha'
      exact hI
    · rw [hF k hkl] at ha'
      exact hmono a' k (hDC k (by omega) a' ha')
  · intro a' j hj
    rcases hsub a' j hj with hjg | ⟨rfl, rfl⟩
    · have h1 := hDS a' j hjg
      have hjlen : j < g.length := operandsAt_mem_length h1
      rw [hF j (by omega)]
      exact h1
    · rw [hG, hops0]
      simp
  · intro j hj w hw
    rw [hlen] at hj
    rcases eq_or_ne j g.length with rfl | hjl
    · unfold getCachedAt at hw
      rw [hB] at hw
      dsimp only at hw
      rw [hcache0] at hw
      simp at hw
    · have hjlen : j < g.length := by omega
      rw [hE j hjlen] at hw
      have := hcoh j hjlen w hw
      rw [denote_ext hD hjlen]
      exact this

/-- Allocating an input preserves the state invariant. -/
theorem create_input_inv {ops : Ops V} {g : Graph V} {x : V}
    (hinv : Inv ops g) : Inv ops (create_input g x).1 := by
  obtain ⟨hWF, hDC, hDS, hcoh⟩ := hinv
  show Inv ops (g ++ [Node.Input x []])
  have hlen : (g ++ [Node.Input x []]).length = g.length + 1 := by simp
  have hB : (g ++ [Node.Input x []])[g.length]? = some (.Input x []) := by simp
  have hC : ∀ k, k ≠ g.length → (g ++ [Node.Input x []])[k]? = g[k]? := by
    intro k hkl
    rcases Nat.lt_or_ge k g.length with hlt | hge
    · exact List.getElem?_append_left hlt
    · rw [List.getElem?_eq_none (by simp; omega), List.getElem?_eq_none (by omega)]
  have hD : ∀ k, k < g.length →
      ((g ++ [Node.Input x []])[k]?).map Node.shape = (g[k]?).map Node.shape := by
    intro k hk
    rw [hC k (by omega)]
  have hdepsEq : ∀ k, getDeps (g ++ [Node.Input x []]) k = getDeps g k := by
    intro k
    unfold getDeps
    rcases eq_or_ne k g.length with rfl | hkl
    · rw [hB, List.getElem?_eq_none (le_refl g.length)]
      rfl
    · rw [hC k hkl]
  have hopsEq : ∀ k, operandsAt (g ++ [Node.Input x []]) k = operandsAt g k := by
    intro k
    unfold operandsAt
    rcases eq_or_ne k g.length with rfl | hkl
    · rw [hB, List.getElem?_eq_none (le_refl g.length)]
      rfl
    · rw [hC k hkl]
  refine ⟨?_, ?_, ?_, ?_⟩
  · intro k hk
    constructor
    · intro a' ha'
      rw [hopsEq k] at ha'
      exact (hWF k (operandsAt_mem_length ha')).1 a' ha'
    · intro j hj
      rw [hdepsEq k] at hj
      have hklen : k < g.length := by
        by_contra hc
        push_neg at hc
        rw [getDeps_out hc] at hj
        simp at hj
      have := (hWF k hklen).2 j hj
      rw [hlen]
      omega
  · intro k hk a' ha'
    rw [hopsEq k] at ha'
    rw [hdepsEq a']
    exact hDC k (operandsAt_mem_length ha') a' ha'
  · intro a' j hj
    rw [hdepsEq a'] at hj
    rw [hopsEq j]
    exact hDS a' j hj
  · intro j hj w hw
    rw [hlen] at hj
    rcases eq_or_ne j g.length with rfl | hjl
    · unfold getCachedAt at hw
      rw [hB] at hw
      rw [denote_input hB]
      exact hw
    · have hjlen : j < g.length := by omega
      have hw0 : getCachedAt g j = some w := by
        unfold getCachedAt at hw ⊢
        rw [hC j hjl] at hw
        exact hw
      have := hcoh j hjlen w hw0
      rw [denote_ext hD hjlen]
      exact this

/-! ### The reachable-state invariant -/

theorem computeF_some_lt {ops : Ops V} {fuel : Nat} {g : Graph V} {i : Nat}
    {p : V × Graph V} (h : computeF ops fuel g i = some p) : i < g.length := by
  cases fuel with
  | zero => simp [computeF] at h
  | succ f =>
    rw [computeF_succ] at h
    cases hm : g[i]? with
    | none => rw [hm] at h; simp at h
    | some n => exact (List.getElem?_eq_some.mp hm).1

theorem compute_inv {ops : Ops V} {g g' : Graph V} {i : Nat} {v : V}
    (h : Inv ops g) (hc : compute ops g i = some (v, g')) : Inv ops g' := by
  obtain ⟨hWF, hDC, hDS, hcoh⟩ := h
  have hi : i < g.length := computeF_some_lt hc
  obtain ⟨v', g'', heq, hskel, hcach, hcohp⟩ :=
    computeF_spec (i + 1) g i hWF hi (Nat.lt_succ_self i)
  rw [show compute ops g i = computeF ops (i + 1) g i from rfl, heq] at hc
  injection hc with hc
  injection hc with hc1 hc2
  subst hc2
  exact ⟨WF_of_skel hskel.symm hWF, DC_of_skel hskel.symm hDC,
    DS_of_skel hskel.symm hDS, (hcohp hcoh).2⟩

/-- Every graph state reachable through the public API satisfies the
full invariant: ordered wiring, exact dependents, coherent caches. -/
theorem reach_inv {ops : Ops V} {g : Graph V} (h : Reach ops g) : Inv ops g := by
  induction h with
  | empty =>
    refine ⟨?_, ?_, ?_, ?_⟩
    · intro i hi
      simp at hi
    · intro i hi
      simp at hi
    · intro a j hj
      rw [getDeps_out (Nat.zero_le a)] at hj
      simp at hj
    · intro j hj
      simp at hj
  | createInput _ ih => exact create_input_inv ih
  | createAdd _ ha hb ih => exact createBin_inv ih ha hb rfl rfl rfl
  | createMul _ ha hb ih => exact createBin_inv ih ha hb rfl rfl rfl
  | createSin _ hx ih => exact createUn_inv ih hx rfl rfl rfl
  | createPow _ ha hb ih => exact createBin_inv ih ha hb rfl rfl rfl
  | computeStep _ hc ih => exact compute_inv ih hc
  | setStep _ hs ih => exact set_inv ih hs

/-! ### Remaining helpers for the claims -/

theorem skeleton_stripCaches (g : Graph V) : skeleton (stripCaches g) = skeleton g := by
  unfold skeleton stripCaches
  rw [List.map_map]
  congr 1
  funext n
  simp [Function.comp, Node.shape_clear, Node.deps_clear]

theorem getElem?_stripCaches (g : Graph V) (j : Nat) :
    (stripCaches g)[j]? = (g[j]?).map Node.clear_slot :=
  List.getElem?_map Node.clear_slot g j

/-- A freshly rebuilt graph (all caches empty) is trivially coherent. -/
theorem stripCaches_coherent (ops : Ops V) (g : Graph V) : Coherent ops (stripCaches g) := by
  intro j hj w hw
  unfold getCachedAt at hw
  rw [getElem?_stripCaches] at hw
  cases hm : g[j]? with
  | none => rw [hm] at hw; simp at hw
  | some nn =>
    rw [hm] at hw
    simp only [Option.map_some'] at hw
    cases nn with
    | Input x d =>
      have hms : (stripCaches g)[j]? = some (.Input x d) := by
        rw [getElem?_stripCaches, hm]
        rfl
      rw [denote_input hms]
      exact hw
    | Add a b c d => simp [Node.clear_slot, Node.get_cached_value] at hw
    | Mul a b c d => simp [Node.clear_slot, Node.get_cached_value] at hw
    | Sin x c d => simp [Node.clear_slot, Node.get_cached_value] at hw
    | Pow a b c d => simp [Node.clear_slot, Node.get_cached_value] at hw

/-- Invalidation never disturbs an `Input` entry, anywhere. -/
theorem clearCacheF_keeps_input : ∀ (fuel : Nat) (g : Graph V) (i j : Nat) (x : V)
    (d : List Nat), g[j]? = some (.Input x d) →
    (clearCacheF fuel g i)[j]? = some (.Input x d) := by
  intro fuel
  induction fuel with
  | zero => intro g i j x d h; exact h
  | succ f ih =>
    intro g i j x d h
    rw [clearCacheF_succ]
    have h1 : (clearNodeAt g i)[j]? = some (.Input x d) := by
      rcases eq_or_ne i j with rfl | hij
      · rw [getElem?_clearNodeAt_self, h]
        rfl
      · rw [getElem?_clearNodeAt_ne g hij]
        exact h
    have hfold : ∀ (l : List Nat) (acc : Graph V), acc[j]? = some (.Input x d) →
        (l.foldl (fun acc k => clearCacheF f acc k) acc)[j]? = some (.Input x d) := by
      intro l
      induction l with
      | nil => intro acc hacc; exact hacc
      | cons e t iht => intro acc hacc; exact iht _ (ih acc e j x d hacc)
    exact hfold _ _ h1

theorem reach_wG : Reach opsZ wG :=
  Reach.createMul (Reach.createSin (Reach.createAdd (Reach.createInput
    (Reach.createInput Reach.empty)) (by decide) (by decide)) (by decide))
    (by decide) (by decide)

theorem reach_wGc : Reach opsZ wGc :=
  @Reach.computeStep Int opsZ wG wGc 4 (-25) reach_wG (by decide)

/-! ### The claims -/

/-- C1: on any API-reachable graph, after `set(i, v)` returns, `compute`
on any node `n` yields exactly the value that an identical graph rebuilt
from scratch (same wiring, same input values — in particular `i = v` —
and every cache slot empty) computes for `n`: cached-and-invalidated
evaluation is observationally equivalent to full recomputation, and no
stale cached value survives `set`. -/
theorem claim_C1 {ops : Ops V} {g g' : Graph V} {i n : Nat} {v : V}
    (hR : Reach ops g) (hs : set g i v = some g') (hn : n < g'.length) :
    ∃ w gA gB, compute ops g' n = some (w, gA) ∧
      compute ops (stripCaches g') n = some (w, gB) := by
  obtain ⟨hWF, hDC, hDS, hcoh⟩ := set_inv (reach_inv hR) hs
  obtain ⟨w, gA, heqA, _, _, hcohpA⟩ :=
    computeF_spec (n + 1) g' n hWF hn (Nat.lt_succ_self n)
  have hskelS : skeleton (stripCaches g') = skeleton g' := skeleton_stripCaches g'
  have hWFS : WF (stripCaches g') := WF_of_skel hskelS.symm hWF
  have hnS : n < (stripCaches g').length := by
    rw [length_eq_of_skel hskelS]
    exact hn
  obtain ⟨w', gB, heqB, _, _, hcohpB⟩ :=
    computeF_spec (n + 1) (stripCaches g') n hWFS hnS (Nat.lt_succ_self n)
  have hdA : denote ops g' n = some w := (hcohpA hcoh).1
  have hdB : denote ops (stripCaches g') n = some w' :=
    (hcohpB (stripCaches_coherent ops g')).1
  have : denote ops g' n = denote ops (stripCaches g') n :=
    denote_of_skel hskelS n
  rw [hdA, hdB] at this
  injection this with this
  exact ⟨w, gA, gB, heqA, by rw [← this] at heqB; exact heqB⟩

theorem claim_C1_witness :
    ∃ w gA gB, compute opsZ wGs 4 = some (w, gA) ∧
      compute opsZ (stripCaches wGs) 4 = some (w, gB) :=
  @claim_C1 Int opsZ wGc wGs 0 4 7 reach_wGc (by decide) (by decide)

/-- C2: when a node's cache slot holds `v`, `compute` returns `v` with
the graph unchanged (no recursive recomputation of operands, no side
effects); consequently an immediately repeated `compute` returns the
identical value and performs no further state change. -/
theorem claim_C2 {ops : Ops V} {g : Graph V} {n : Nat} :
    (∀ v, getCachedAt g n = some v → compute ops g n = some (v, g)) ∧
    (∀ v g', compute ops g n = some (v, g') → compute ops g' n = some (v, g')) := by
  constructor
  · intro v hv
    unfold getCachedAt at hv
    cases hm : g[n]? with
    | none => rw [hm] at hv; simp at hv
    | some nd =>
      rw [hm] at hv
      exact computeF_hit hm hv
  · intro v g' hc
    have hcach : getCachedAt g' n = some v := computeF_caches (n + 1) g n v g' hc
    unfold getCachedAt at hcach
    cases hm : g'[n]? with
    | none => rw [hm] at hcach; simp at hcach
    | some nd =>
      rw [hm] at hcach
      exact computeF_hit hm hcach

theorem claim_C2_witness :
    compute opsZ wGc 2 = some (5, wGc) ∧ compute opsZ wGc 4 = some (-25, wGc) :=
  ⟨(@claim_C2 Int opsZ wGc 2).1 5 (by decide),
    (@claim_C2 Int opsZ wG 4).2 (-25) wGc (by decide)⟩

/-- C3: `set` on a non-`Input` node fails loudly (the embedded `panic!`,
i.e. `none`) and is never a silent no-op; `set` on an `Input` succeeds
and stores the new value in the input's slot. -/
theorem claim_C3 {g : Graph V} {i : Nat} {v : V} {n : Node V} (hm : g[i]? = some n) :
    (n.isInput = false → set g i v = none) ∧
    (∀ x deps, n = .Input x deps →
      ∃ g', set g i v = some g' ∧ g'[i]? = some (.Input v deps)) := by
  constructor
  · exact fun hni => set_panics hm hni
  · rintro x deps rfl
    refine ⟨clear_cache (g.set i (.Input v deps)) i, set_input hm, ?_⟩
    have hi : i < g.length := (List.getElem?_eq_some.mp hm).1
    exact clearCacheF_keeps_input _ _ i i v deps (List.getElem?_set_self hi)

theorem claim_C3_witness :
    (set wGc 4 (9 : Int) = none) ∧
    (∃ g', set wGc 0 (9 : Int) = some g' ∧ g'[0]? = some (.Input 9 [2])) :=
  ⟨(@claim_C3 Int wGc 4 9 (.Mul 2 3 (some (-25)) []) (by decide)).1 (by decide),
    (@claim_C3 Int wGc 0 9 (.Input 2 [2]) (by decide)).2 2 [2] rfl⟩

/-- C4: on a cache miss, `compute` recursively computes each operand
(left to right), applies the node's operator — add, multiply, power
with the left operand as base, sine of the single operand — to the
results, stores the value in the node's cache slot via `save_to_cache`,
and returns it; on an `Input` node `compute` returns the stored value
directly. -/
theorem claim_C4 {ops : Ops V} {g : Graph V} {i : Nat} (hWF : WF g) (hi : i < g.length) :
    (∀ x d, g[i]? = some (.Input x d) → compute ops g i = some (x, g)) ∧
    (∀ a b d va vb g1 g2, g[i]? = some (.Add a b none d) →
      compute ops g a = some (va, g1) → compute ops g1 b = some (vb, g2) →
      compute ops g i = some (ops.add va vb, saveToCache g2 i (ops.add va vb))) ∧
    (∀ a b d va vb g1 g2, g[i]? = some (.Mul a b none d) →
      compute ops g a = some (va, g1) → compute ops g1 b = some (vb, g2) →
      compute ops g i = some (ops.mul va vb, saveToCache g2 i (ops.mul va vb))) ∧
    (∀ x d vx g1, g[i]? = some (.Sin x none d) →
      compute ops g x = some (vx, g1) →
      compute ops g i = some (ops.sin vx, saveToCache g1 i (ops.sin vx))) ∧
    (∀ a b d va vb g1 g2, g[i]? = some (.Pow a b none d) →
      compute ops g a = some (va, g1) → compute ops g1 b = some (vb, g2) →
      compute ops g i = some (ops.pow va vb, saveToCache g2 i (ops.pow va vb))) := by
  refine ⟨?_, ?_, ?_, ?_, ?_⟩
  · intro x d hm
    exact computeF_hit hm rfl
  · intro a b d va vb g1 g2 hm hA hB
    have hops : operandsAt g i = [a, b] := by unfold operandsAt; rw [hm]; rfl
    have h1 := (hWF i hi).1
    rw [hops] at h1
    have ha : a < i := h1 a (by simp)
    have hb : b < i := h1 b (by simp)
    show computeF ops (i + 1) g i = _
    rw [computeF_add_miss hm]
    have hskel1 : skeleton g1 = skeleton g := computeF_skel (a + 1) g a va g1 hA
    have hA' : computeF ops i g a = some (va, g1) := by
      rw [computeF_fuel i (a + 1) g a hWF (by omega) (by omega) (by omega)]
      exact hA
    have hB' : computeF ops i g1 b = some (vb, g2) := by
      rw [computeF_fuel i (b + 1) g1 b (WF_of_skel hskel1.symm hWF)
        (by rw [length_eq_of_skel hskel1]; omega) (by omega) (by omega)]
      exact hB
    rw [hA']
    dsimp only
    rw [hB']
  · intro a b d va vb g1 g2 hm hA hB
    have hops : operandsAt g i = [a, b] := by unfold operandsAt; rw [hm]; rfl
    have h1 := (hWF i hi).1
    rw [hops] at h1
    have ha : a < i := h1 a (by simp)
    have hb : b < i := h1 b (by simp)
    show computeF ops (i + 1) g i = _
    rw [computeF_mul_miss hm]
    have hskel1 : skeleton g1 = skeleton g := computeF_skel (a + 1) g a va g1 hA
    have hA' : computeF ops i g a = some (va, g1) := by
      rw [computeF_fuel i (a + 1) g a hWF (by omega) (by omega) (by omega)]
      exact hA
    have hB' : computeF ops i g1 b = some (vb, g2) := by
      rw [computeF_fuel i (b + 1) g1 b (WF_of_skel hskel1.symm hWF)
        (by rw [length_eq_of_skel hskel1]; omega) (by omega) (by omega)]
      exact hB
    rw [hA']
    dsimp only
    rw [hB']
  · intro x d vx g1 hm hA
    have hops : operandsAt g i = [x] := by unfold operandsAt; rw [hm]; rfl
    have h1 := (hWF i hi).1
    rw [hops] at h1
    have hx : x < i := h1 x (by simp)
    show computeF ops (i + 1) g i = _
    rw [computeF_sine_miss hm]
    have hA' : computeF ops i g x = some (vx, g1) := by
      rw [computeF_fuel i (x + 1) g x hWF (by omega) (by omega) (by omega)]
      exact hA
    rw [hA']
  · intro a b d va vb g1 g2 hm hA hB
    have hops : operandsAt g i = [a, b] := by unfold operandsAt; rw [hm]; rfl
    have h1 := (hWF i hi).1
    rw [hops] at h1
    have ha : a < i := h1 a (by simp)
    have hb : b < i := h1 b (by simp)
    show computeF ops (i + 1) g i = _
    rw [computeF_pow_miss hm]
    have hskel1 : skeleton g1 = skeleton g := computeF_skel (a + 1) g a va g1 hA
    have hA' : computeF ops i g a = some (va, g1) := by
      rw [computeF_fuel i (a + 1) g a hWF (by omega) (by omega) (by omega)]
      exact hA
    have hB' : computeF ops i g1 b = some (vb, g2) := by
      rw [computeF_fuel i (b + 1) g1 b (WF_of_skel hskel1.symm hWF)
        (by rw [length_eq_of_skel hskel1]; omega) (by omega) (by omega)]
      exact hB
    rw [hA']
    dsimp only
    rw [hB']

theorem claim_C4_witness :
    WF wG ∧ compute opsZ wG 0 = some (2, wG) ∧ compute opsZ wG 1 = some (3, wG) ∧
      compute opsZ wG 2 = some (5, saveToCache wG 2 5) :=
  ⟨by decide, by decide, by decide,
    (@claim_C4 Int opsZ wG 2 (by decide) (by decide)).2.1 0 1 [3, 4] 2 3 wG wG
      (by decide) (by decide) (by decide)⟩

/-- C5: in every API-reachable graph state, whenever a non-`Input`
node's cache slot holds a value, that value equals the node's operator
re-applied to its operands' current (pure) values — the
cache-consistency invariant is preserved by every operation. -/
theorem claim_C5 {ops : Ops V} {g : Graph V} (hR : Reach ops g) :
    (∀ (i a b : Nat) (v : V) (d : List Nat), g[i]? = some (Node.Add a b (some v) d) →
      ∃ va vb, denote ops g a = some va ∧ denote ops g b = some vb ∧
        v = ops.add va vb) ∧
    (∀ (i a b : Nat) (v : V) (d : List Nat), g[i]? = some (Node.Mul a b (some v) d) →
      ∃ va vb, denote ops g a = some va ∧ denote ops g b = some vb ∧
        v = ops.mul va vb) ∧
    (∀ (i x : Nat) (v : V) (d : List Nat), g[i]? = some (Node.Sin x (some v) d) →
      ∃ vx, denote ops g x = some vx ∧ v = ops.sin vx) ∧
    (∀ (i a b : Nat) (v : V) (d : List Nat), g[i]? = some (Node.Pow a b (some v) d) →
      ∃ va vb, denote ops g a = some va ∧ denote ops g b = some vb ∧
        v = ops.pow va vb) := by
  obtain ⟨hWF, hDC, hDS, hcoh⟩ := reach_inv hR
  refine ⟨?_, ?_, ?_, ?_⟩
  · intro i a b v d hm
    have hi : i < g.length := (List.getElem?_eq_some.mp hm).1
    have hcache : getCachedAt g i = some v := by unfold getCachedAt; rw [hm]; rfl
    have hden : denote ops g i = some v := hcoh i hi v hcache
    have hops : operandsAt g i = [a, b] := by unfold operandsAt; rw [hm]; rfl
    have h1 := (hWF i hi).1
    rw [hops] at h1
    rw [denote_add hm (h1 a (by simp)) (h1 b (by simp))] at hden
    cases hda : denote ops g a with
    | none => rw [hda] at hden; simp at hden
    | some va =>
      cases hdb : denote ops g b with
      | none => rw [hda, hdb] at hden; simp at hden
      | some vb =>
        rw [hda, hdb] at hden
        simp only [Option.some.injEq] at hden
        exact ⟨va, vb, rfl, rfl, hden.symm⟩
  · intro i a b v d hm
    have hi : i < g.length := (List.getElem?_eq_some.mp hm).1
    have hcache : getCachedAt g i = some v := by unfold getCachedAt; rw [hm]; rfl
    have hden : denote ops g i = some v := hcoh i hi v hcache
    have hops : operandsAt g i = [a, b] := by unfold operandsAt; rw [hm]; rfl
    have h1 := (hWF i hi).1
    rw [hops] at h1
    rw [denote_mul hm (h1 a (by simp)) (h1 b (by simp))] at hden
    cases hda : denote ops g a with
    | none => rw [hda] at hden; simp at hden
    | some va =>
      cases hdb : denote ops g b with
      | none => rw [hda, hdb] at hden; simp at hden
      | some vb =>
        rw [hda, hdb] at hden
        simp only [Option.some.injEq] at hden
        exact ⟨va, vb, rfl, rfl, hden.symm⟩
  · intro i x v d hm
    have hi : i < g.length := (List.getElem?_eq_some.mp hm).1
    have hcache : getCachedAt g i = some v := by unfold getCachedAt; rw [hm]; rfl
    have hden : denote ops g i = some v := hcoh i hi v hcache
    have hops : operandsAt g i = [x] := by unfold operandsAt; rw [hm]; rfl
    have h1 := (hWF i hi).1
    rw [hops] at h1
    rw [denote_sine hm (h1 x (by simp))] at hden
    cases hdx : denote ops g x with
    | none => rw [hdx] at hden; simp at hden
    | some vx =>
      rw [hdx] at hden
      simp only [Option.some.injEq] at hden
      exact ⟨vx, rfl, hden.symm⟩
  · intro i a b v d hm
    have hi : i < g.length := (List.getElem?_eq_some.mp hm).1
    have hcache : getCachedAt g i = some v := by unfold getCachedAt; rw [hm]; rfl
    have hden : denote ops g i = some v := hcoh i hi v hcache
    have hops : operandsAt g i = [a, b] := by unfold operandsAt; rw [hm]; rfl
    have h1 := (hWF i hi).1
    rw [hops] at h1
    rw [denote_pow hm (h1 a (by simp)) (h1 b (by simp))] at hden
    cases hda : denote ops g a with
    | none => rw [hda] at hden; simp at hden
    | some va =>
      cases hdb : denote ops g b with
      | none => rw [hda, hdb] at hden; simp at hden
      | some vb =>
        rw [hda, hdb] at hden
        simp only [Option.some.injEq] at hden
        exact ⟨va, vb, rfl, rfl, hden.symm⟩

theorem claim_C5_witness :
    ∃ va vb, denote opsZ wGc 0 = some va ∧ denote opsZ wGc 1 = some vb ∧
      (5 : Int) = opsZ.add va vb :=
  (@claim_C5 Int opsZ wGc reach_wGc).1 2 0 1 5 [3, 4] (by decide)

/-- C6: each constructor returns a node wired atomically with creation:
the new node sits at the fresh index with its operand references, an
empty cache and an empty dependents list; it has been appended to each
of its operands' dependents lists (twice when both operands coincide);
all other entries are untouched, and every dependents list only ever
grows by appends.  Moreover on reachable states a dependents list holds
exactly the direct consumers, and `compute` and `set` never change any
dependents list. -/
theorem claim_C6 {ops : Ops V} {g : Graph V} {a b x : Nat} :
    (a < g.length → b < g.length →
      (create_add g a b).2 = g.length ∧
      (create_add g a b).1.length = g.length + 1 ∧
      (create_add g a b).1[g.length]? = some (.Add a b none []) ∧
      g.length ∈ getDeps (create_add g a b).1 a ∧
      g.length ∈ getDeps (create_add g a b).1 b ∧
      (∀ k, k ≠ a → k ≠ b → k ≠ g.length → (create_add g a b).1[k]? = g[k]?) ∧
      (∀ k, ∃ t, getDeps (create_add g a b).1 k = getDeps g k ++ t)) ∧
    (a < g.length → b < g.length →
      (create_mul g a b).2 = g.length ∧
      (create_mul g a b).1.length = g.length + 1 ∧
      (create_mul g a b).1[g.length]? = some (.Mul a b none []) ∧
      g.length ∈ getDeps (create_mul g a b).1 a ∧
      g.length ∈ getDeps (create_mul g a b).1 b ∧
      (∀ k, k ≠ a → k ≠ b → k ≠ g.length → (create_mul g a b).1[k]? = g[k]?) ∧
      (∀ k, ∃ t, getDeps (create_mul g a b).1 k = getDeps g k ++ t)) ∧
    (x < g.length →
      (create_sin g x).2 = g.length ∧
      (create_sin g x).1.length = g.length + 1 ∧
      (create_sin g x).1[g.length]? = some (.Sin x none []) ∧
      g.length ∈ getDeps (create_sin g x).1 x ∧
      (∀ k, k ≠ x → k ≠ g.length → (create_sin g x).1[k]? = g[k]?) ∧
      (∀ k, ∃ t, getDeps (create_sin g x).1 k = getDeps g k ++ t)) ∧
    (a < g.length → b < g.length →
      (create_pow g a b).2 = g.length ∧
      (create_pow g a b).1.length = g.length + 1 ∧
      (create_pow g a b).1[g.length]? = some (.Pow a b none []) ∧
      g.length ∈ getDeps (create_pow g a b).1 a ∧
      g.length ∈ getDeps (create_pow g a b).1 b ∧
      (∀ k, k ≠ a → k ≠ b → k ≠ g.length → (create_pow g a b).1[k]? = g[k]?) ∧
      (∀ k, ∃ t, getDeps (create_pow g a b).1 k = getDeps g k ++ t)) ∧
    (Reach ops g → ∀ k j, j ∈ getDeps g k ↔ k ∈ operandsAt g j) ∧
    (∀ i v g', compute ops g i = some (v, g') → ∀ k, getDeps g' k = getDeps g k) ∧
    (∀ i v g', set g i v = some g' → ∀ k, getDeps g' k = getDeps g k) := by
  refine ⟨?_, ?_, ?_, ?_, ?_, ?_, ?_⟩
  · intro ha hb
    obtain ⟨hlen, hB, hC, _, _, _, _, hH, hIa, hIb, hJ, hK⟩ :=
      createBin_facts (Node.Add a b none []) ha hb rfl
    refine ⟨rfl, hlen, hB, hIa, hIb, hC, ?_⟩
    intro k
    by_cases hka : k = a
    · subst hka
      rcases eq_or_ne k b with rfl | hkb
      · exact ⟨[g.length, g.length], hK rfl⟩
      · exact ⟨[g.length], (hJ hkb).1⟩
    · by_cases hkb : k = b
      · subst hkb
        exact ⟨[g.length], (hJ (Ne.symm hka)).2⟩
      · exact ⟨[], by rw [List.append_nil]; exact hH k hka hkb⟩
  · intro ha hb
    obtain ⟨hlen, hB, hC, _, _, _, _, hH, hIa, hIb, hJ, hK⟩ :=
      createBin_facts (Node.Mul a b none []) ha hb rfl
    refine ⟨rfl, hlen, hB, hIa, hIb, hC, ?_⟩
    intro k
    by_cases hka : k = a
    · subst hka
      rcases eq_or_ne k b with rfl | hkb
      · exact ⟨[g.length, g.length], hK rfl⟩
      · exact ⟨[g.length], (hJ hkb).1⟩
    · by_cases hkb : k = b
      · subst hkb
        exact ⟨[g.length], (hJ (Ne.symm hka)).2⟩
      · exact ⟨[], by rw [List.append_nil]; exact hH k hka hkb⟩
  · intro hx
    obtain ⟨hlen, hB, hC, _, _, _, _, hH, hI, hJ⟩ :=
      createUn_facts (Node.Sin x none []) hx rfl
    refine ⟨rfl, hlen, hB, hI, hC, ?_⟩
    intro k
    by_cases hkx : k = x
    · subst hkx
      exact ⟨[g.length], hJ⟩
    · exact ⟨[], by rw [List.append_nil]; exact hH k hkx⟩
  · intro ha hb
    obtain ⟨hlen, hB, hC, _, _, _, _, hH, hIa, hIb, hJ, hK⟩ :=
      createBin_facts (Node.Pow a b none []) ha hb rfl
    refine ⟨rfl, hlen, hB, hIa, hIb, hC, ?_⟩
    intro k
    by_cases hka : k = a
    · subst hka
      rcases eq_or_ne k b with rfl | hkb
      · exact ⟨[g.length, g.length], hK rfl⟩
      · exact ⟨[g.length], (hJ hkb).1⟩
    · by_cases hkb : k = b
      · subst hkb
        exact ⟨[g.length], (hJ (Ne.symm hka)).2⟩
      · exact ⟨[], by rw [List.append_nil]; exact hH k hka hkb⟩
  · intro hR k j
    obtain ⟨hWF, hDC, hDS, _⟩ := reach_inv hR
    constructor
    · exact fun hj => hDS k j hj
    · intro hj
      exact hDC j (operandsAt_mem_length hj) k hj
  · intro i v g' hc k
    exact getDeps_eq_of_skel (computeF_skel (i + 1) g i v g' hc) k
  · intro i v g' hsv k
    obtain ⟨xx, deps, hm, rfl⟩ := set_inversion hsv
    obtain ⟨_, hdeps, _, _, _⟩ := gset_facts v hm
    rw [getDeps_eq_of_skel (clear_cache_skel (g.set i (.Input v deps)) i) k]
    exact hdeps k

theorem claim_C6_witness :
    ((create_add wG 0 1).1[wG.length]? = some (.Add 0 1 none []) ∧
      wG.length ∈ getDeps (create_add wG 0 1).1 0 ∧
      wG.length ∈ getDeps (create_add wG 0 1).1 1) ∧
    (3 ∈ getDeps wG 2 ↔ 2 ∈ operandsAt wG 3) :=
  ⟨⟨((@claim_C6 Int opsZ wG 0 1 0).1 (by decide) (by decide)).2.2.1,
    ((@claim_C6 Int opsZ wG 0 1 0).1 (by decide) (by decide)).2.2.2.1,
    ((@claim_C6 Int opsZ wG 0 1 0).1 (by decide) (by decide)).2.2.2.2.1⟩,
    (@claim_C6 Int opsZ wG 0 1 0).2.2.2.2.1 reach_wG 2 3⟩

/-- C8: `set` with the same value twice in succession yields exactly the
same final graph state (input values and every cache slot) as calling it
once: the second call stores the value already present and re-clears
already-empty caches, a complete no-op on the state. -/
theorem claim_C8 {g g' : Graph V} {i : Nat} {v : V} (hWF : WF g)
    (hs : set g i v = some g') : set g' i v = some g' := by
  obtain ⟨x, deps, hm, hlen, hat_i, hframe, hclear, hdeps, hops⟩ := set_char hWF hs
  have hi : i < g.length := (List.getElem?_eq_some.mp hm).1
  have hWF' : WF g' :=
    WF_congr hlen.symm (fun k => (hops k).symm) (fun k => (hdeps k).symm) hWF
  have hi' : i < g'.length := by omega
  have hsetself : g'.set i (.Input v deps) = g' := set_getElem?_self hat_i
  have hclearid : clear_cache g' i = g' := by
    apply List.ext_getElem?
    intro j
    by_cases hr : DepReach g' i j
    · rw [clear_cache_reach hWF' hi' hr]
      rcases eq_or_ne j i with rfl | hne
      · rw [hat_i]
        rfl
      · have hrg : DepReach g i j := depReach_congr hdeps hr
        obtain ⟨n, hn, hn'⟩ := hclear j hne hrg
        rw [hn']
        simp [Node.clear_clear]
    · rw [clear_cache_frame hWF' hi' hr]
  rw [set_input hat_i, hsetself, hclearid]

theorem claim_C8_witness :
    WF wGc ∧ set wGc 0 (7 : Int) = some wGs ∧ set wGs 0 (7 : Int) = some wGs :=
  ⟨by decide, by decide, @claim_C8 Int wGc wGs 0 7 (by decide) (by decide)⟩

/-- C9: on a well-formed (acyclic, as construction order guarantees)
graph, `compute` always terminates successfully on every node, and `set`
on an `Input` always terminates successfully, for every scalar value —
no operation besides `set`-on-non-`Input` can fail. -/
theorem claim_C9 {ops : Ops V} {g : Graph V} {i : Nat} (hWF : WF g) (hi : i < g.length) :
    (∃ v g', compute ops g i = some (v, g')) ∧
    (∀ x deps v, g[i]? = some (.Input x deps) → ∃ g', set g i v = some g') := by
  constructor
  · obtain ⟨v, g', heq, -, -, -⟩ := computeF_spec (i + 1) g i hWF hi (Nat.lt_succ_self i)
    exact ⟨v, g', heq⟩
  · intro x deps v hm
    exact ⟨_, set_input hm⟩

theorem claim_C9_witness :
    (∃ v g', compute opsZ wG 4 = some (v, g')) ∧
    (∃ g', set wG 0 (9 : Int) = some g') :=
  ⟨(@claim_C9 Int opsZ wG 4 (by decide) (by decide)).1,
    (@claim_C9 Int opsZ wG 0 (by decide) (by decide)).2 2 [2] 9 (by decide)⟩

/-- C10: `set(i, v)` on a well-formed graph unconditionally stores `v`
and empties the cache slot of every node reachable from `i` along
dependent edges — the statement holds for every `v`, including the
input's current value — while changing nothing else: entries outside
the dependent-reachable set are untouched, cleared entries change only
their cache slot, and no dependents list changes anywhere. -/
theorem claim_C10 {g g' : Graph V} {i : Nat} {v : V} (hWF : WF g)
    (hs : set g i v = some g') :
    ∃ x deps, g[i]? = some (.Input x deps) ∧
      g'.length = g.length ∧
      g'[i]? = some (.Input v deps) ∧
      (∀ j, j ≠ i → DepReach g i j → ∃ n, g[j]? = some n ∧ g'[j]? = some n.clear_slot) ∧
      (∀ j, j ≠ i → ¬DepReach g i j → g'[j]? = g[j]?) ∧
      (∀ k, getDeps g' k = getDeps g k) := by
  obtain ⟨x, deps, hm, hlen, hat, hframe, hclear, hdeps, hops⟩ := set_char hWF hs
  exact ⟨x, deps, hm, hlen, hat, hclear, hframe, hdeps⟩

theorem claim_C10_witness :
    ∃ x deps, wGc[0]? = some (.Input x deps) ∧
      wG.length = wGc.length ∧
      wG[0]? = some (.Input (2 : Int) deps) ∧
      (∀ j, j ≠ 0 → DepReach wGc 0 j →
        ∃ n, wGc[j]? = some n ∧ wG[j]? = some n.clear_slot) ∧
      (∀ j, j ≠ 0 → ¬DepReach wGc 0 j → wG[j]? = wGc[j]?) ∧
      (∀ k, getDeps wG k = getDeps wGc k) :=
  @claim_C10 Int wGc wG 0 2 (by decide) (by decide)

end CompGraph
